import Mathlib

/-!
# Verification of the wp_plugin_releaser release pipeline

Shallow embedding of the core of `wp_plugin_release.go` (and of the Go
standard-library functions it depends on), together with theorems settling
the specification claims about version comparison, source patching, metadata
reconciliation, archive assembly, remote-path resolution, upload skipping and
backup-then-overwrite writing.

Strings are modeled as `List Char` (Go strings are byte slices; every string
handled by the program is ASCII, so a rune-level model is byte-faithful).
Go machine integers that the claims touch (version components, Unix
timestamps) stay far below 2^63, so they are modeled as unbounded `Int`;
no claim depends on overflow behavior.
-/

set_option maxRecDepth 10000

deriving instance DecidableEq for Except

abbrev Str := List Char

/-! ## strings.Split on a single-character separator (used with ".") -/

def splitOn (sep : Char) : Str → List Str
  | [] => [[]]
  | c :: rest =>
    let r := splitOn sep rest
    if c = sep then [] :: r
    else (c :: r.headD []) :: r.tail

theorem splitOn_ne_nil (sep : Char) (s : Str) : splitOn sep s ≠ [] := by
  cases s with
  | nil => simp [splitOn]
  | cons c rest => simp only [splitOn]; split <;> simp

/-! ## strconv.Atoi as used in getHigherVersion

`n, _ = strconv.Atoi(part)` keeps `n = 0` whenever `Atoi` reports an error
(empty string, stray non-digit characters).  `Atoi` accepts an optional
leading sign followed by at least one digit. -/

def digitsVal : Str → Option Nat
  | [] => none
  | [c] => if c.isDigit then some (c.toNat - 48) else none
  | c :: rest =>
    if c.isDigit then
      match digitsVal rest with
      | some n => some ((c.toNat - 48) * 10 ^ rest.length + n)
      | none => none
    else none

def goAtoi (s : Str) : Int :=
  match s with
  | [] => 0
  | '+' :: rest => ((digitsVal rest).getD 0 : Int)
  | '-' :: rest => -(((digitsVal rest).getD 0 : Int))
  | _ => ((digitsVal s).getD 0 : Int)

/-! ## getHigherVersion (src/wp_plugin_release.go lines 1209-1247)

The Go loop walks index `i` from 0 to `maxLen-1`, reading component `i` of
each split version (0 when the index is past the end, 0 when `Atoi` fails),
returning `v1` on the first strictly greater left component, `v2` on the
first strictly greater right component, and `v1` when the loop finishes.
`ghvCmp` is that loop expressed on the two component lists: exhausting one
list corresponds exactly to the out-of-range-index-means-0 behavior. -/

def ghvTail : List Str → Ordering
  | [] => .eq
  | y :: ys =>
    if (0 : Int) > goAtoi y then .gt
    else if goAtoi y > (0 : Int) then .lt
    else ghvTail ys

def ghvCmp : List Str → List Str → Ordering
  | [], ys => ghvTail ys
  | x :: xs, [] =>
    if goAtoi x > (0 : Int) then .gt
    else if (0 : Int) > goAtoi x then .lt
    else ghvCmp xs []
  | x :: xs, y :: ys =>
    if goAtoi x > goAtoi y then .gt
    else if goAtoi y > goAtoi x then .lt
    else ghvCmp xs ys

def getHigherVersion (v1 v2 : Str) : Str :=
  if v1 = [] ∧ v2 = [] then []
  else if v1 = [] then v2
  else if v2 = [] then v1
  else
    match ghvCmp (splitOn '.' v1) (splitOn '.' v2) with
    | .lt => v2
    | _ => v1

/-! ## Claim C1: comparator behavior on a shared prefix with extra segments -/

theorem ghvCmp_nil (ys : List Str) : ghvCmp [] ys = ghvTail ys := by
  cases ys <;> rfl

theorem ghvCmp_congr (xs pre2 extra : List Str)
    (h : xs.map goAtoi = pre2.map goAtoi) :
    ghvCmp xs (pre2 ++ extra) = ghvTail extra := by
  induction xs generalizing pre2 with
  | nil =>
    have : pre2 = [] := by
      cases pre2 with
      | nil => rfl
      | cons b bs => simp at h
    subst this
    simpa using ghvCmp_nil extra
  | cons x xs ih =>
    cases pre2 with
    | nil => simp at h
    | cons b bs =>
      simp only [List.map_cons, List.cons.injEq] at h
      simp only [List.cons_append, ghvCmp, h.1, gt_iff_lt, lt_irrefl,
        if_false]
      exact ih bs h.2

theorem ghvTail_all_zero (l : List Str) (h : ∀ s ∈ l, goAtoi s = 0) :
    ghvTail l = .eq := by
  induction l with
  | nil => rfl
  | cons y ys ih =>
    have hy : goAtoi y = 0 := h y (by simp)
    simp only [ghvTail, hy]
    exact ih fun s hs => h s (by simp [hs])

theorem ghvTail_pos (l : List Str) (hnn : ∀ s ∈ l, 0 ≤ goAtoi s)
    (hex : ∃ s ∈ l, 0 < goAtoi s) : ghvTail l = .lt := by
  induction l with
  | nil => simp at hex
  | cons y ys ih =>
    have hy : 0 ≤ goAtoi y := hnn y (by simp)
    simp only [ghvTail]
    rw [if_neg (by omega)]
    by_cases hgt : goAtoi y > 0
    · rw [if_pos hgt]
    · rw [if_neg hgt]
      apply ih (fun s hs => hnn s (by simp [hs]))
      rcases hex with ⟨s, hmem, hpos⟩
      rcases List.mem_cons.mp hmem with heq | htl
      · exact absurd (heq ▸ hpos) hgt
      · exact ⟨s, htl, hpos⟩

/-- C1 (counterexample): the claim says that for version strings agreeing on
the common prefix the longer one is returned, so `getHigherVersion "1.2"
"1.2.0"` should be `"1.2.0"`; the code pads the shorter value with zeros,
finds the two numerically equal and returns the *first* operand `"1.2"`. -/
theorem C1_counterexample :
    getHigherVersion ("1.2".data) ("1.2.0".data) = "1.2".data ∧
    "1.2".data ≠ "1.2.0".data := by
  constructor
  · decide
  · decide

/-- C1 (amended): components are compared left-to-right as integers with a
non-numeric or missing segment comparing as 0.  When the numeric components
agree on the common prefix and the second string has extra segments, the
longer (second) string is returned exactly when its extra segments are
nonnegative and include a strictly positive one (e.g. `1.2` vs `1.2.3`
yields `1.2.3`); when every extra segment compares as 0 (e.g. `1.2` vs
`1.2.0`) the two are numerically equal and the *first* operand is returned. -/
theorem C1_amended (v1 v2 : Str) (pre2 extra : List Str)
    (h1 : v1 ≠ []) (h2 : v2 ≠ [])
    (hsplit : splitOn '.' v2 = pre2 ++ extra)
    (hpre : (splitOn '.' v1).map goAtoi = pre2.map goAtoi) :
    ((∀ s ∈ extra, goAtoi s = 0) → getHigherVersion v1 v2 = v1) ∧
    ((∀ s ∈ extra, 0 ≤ goAtoi s) → (∃ s ∈ extra, 0 < goAtoi s) →
      getHigherVersion v1 v2 = v2) := by
  have hcmp : ghvCmp (splitOn '.' v1) (splitOn '.' v2) = ghvTail extra := by
    rw [hsplit]; exact ghvCmp_congr _ _ _ hpre
  constructor
  · intro hz
    have : ghvTail extra = .eq := ghvTail_all_zero extra hz
    simp only [getHigherVersion, h1, h2, false_and, if_false, if_neg h1,
      if_neg h2, hcmp, this]
  · intro hnn hex
    have : ghvTail extra = .lt := ghvTail_pos extra hnn hex
    simp only [getHigherVersion, h1, h2, false_and, if_false, if_neg h1,
      if_neg h2, hcmp, this]

/-- C1 witness: the amended theorem applied at `"1.2"` vs `"1.2.3"`. -/
theorem C1_witness : getHigherVersion ("1.2".data) ("1.2.3".data) = "1.2.3".data :=
  (C1_amended ("1.2".data) ("1.2.3".data) [['1'], ['2']] [['3']]
    (by decide) (by decide) (by decide) (by decide)).2
    (by decide) (by decide)

/-! ## Byte-span slicing and splicing

`sliceStr s a b` is Go `s[a:b]`; `spliceStr s a b r` is
`s[:a] + r + s[b:]`, the in-place replacement idiom used throughout
processMainPHPFile. -/

def sliceStr (s : Str) (a b : Nat) : Str := (s.take b).drop a

def spliceStr (s : Str) (a b : Nat) (r : Str) : Str :=
  s.take a ++ r ++ s.drop b

theorem sliceStr_at (s a b c : Str) (lo hi : Nat) (hs : s = a ++ b ++ c)
    (hlo : lo = a.length) (hhi : hi = a.length + b.length) :
    sliceStr s lo hi = b := by
  subst hs hlo hhi
  unfold sliceStr
  rw [List.append_assoc, List.take_append, List.take_left, List.drop_left]

theorem spliceStr_at (s a b c r : Str) (lo hi : Nat) (hs : s = a ++ b ++ c)
    (hlo : lo = a.length) (hhi : hi = a.length + b.length) :
    spliceStr s lo hi r = a ++ r ++ c := by
  subst hs hlo hhi
  unfold spliceStr
  have h1 : List.take a.length (a ++ b ++ c) = a := by
    rw [List.append_assoc]; exact List.take_left a (b ++ c)
  have h2 : List.drop (a.length + b.length) (a ++ b ++ c) = c := by
    rw [List.append_assoc, List.drop_append]; exact List.drop_left b c
  rw [h1, h2]

/-! ## processMainPHPFile, text-editing core (lines 1060-1193)

The three version regexes, the Last-Update regex and the update-checker
regex are deterministic functions of the text; their match results (the
byte spans of the capture groups, as returned by FindStringSubmatchIndex)
enter the model as inputs.  The version spans are matched on the original
text; the Last-Update and update-checker spans are re-matched by the code
on the already-edited text, so here they refer to the intermediate text. -/

structure Span where
  lo : Nat
  hi : Nat
deriving DecidableEq

def spanSlice (s : Str) (sp : Span) : Str := sliceStr s sp.lo sp.hi

/-- Version extraction and replacement (lines 1071-1131): slice the three
capture groups, take the pairwise-highest version, then replace the class
span, the comment span and the define span (in that order, each guarded by
"declaration present and differs from the winner") at their original
offsets.  Fails when no declaration yields a version. -/
def versionEditPhase (content : Str) (commentM classM defineM : Option Span) :
    Except Unit (Str × Str) :=
  let commentVersion := match commentM with
    | some sp => spanSlice content sp
    | none => []
  let classVersion := match classM with
    | some sp => spanSlice content sp
    | none => []
  let defineVersion := match defineM with
    | some sp => spanSlice content sp
    | none => []
  let currentVersion :=
    getHigherVersion (getHigherVersion commentVersion classVersion) defineVersion
  if currentVersion = [] then .error ()
  else
    let c1 := if classVersion ≠ [] ∧ classVersion ≠ currentVersion then
        match classM with
        | some sp => spliceStr content sp.lo sp.hi currentVersion
        | none => content
      else content
    let c2 := if commentVersion ≠ [] ∧ commentVersion ≠ currentVersion then
        match commentM with
        | some sp => spliceStr c1 sp.lo sp.hi currentVersion
        | none => c1
      else c1
    let c3 := if defineVersion ≠ [] ∧ defineVersion ≠ currentVersion then
        match defineM with
        | some sp => spliceStr c2 sp.lo sp.hi currentVersion
        | none => c2
      else c2
    .ok (c3, currentVersion)

/-- Last-Update handling (lines 1133-1155): when the freshly matched
timestamp span `luM` is present its capture group is replaced by the
current date; otherwise, when a Version line is found (`insM` carrying the
full-match end, the group start and the scanned-back line start), a
Last-Update line is inserted after it; otherwise the text is unchanged. -/
def timestampPhase (content : Str) (luM : Option Span)
    (insM : Option (Nat × Nat × Nat)) (currentDate : Str) : Str :=
  match luM with
  | some sp => spliceStr content sp.lo sp.hi currentDate
  | none =>
    match insM with
    | some (mEnd, gStart, pos) =>
      content.take mEnd ++ sliceStr content pos gStart ++
        ("Last-Update: ".data ++ currentDate) ++ content.drop mEnd
    | none => content

structure PucMatch where
  full : Span
  url : Span
  cmt : Span
  slug : Span
deriving DecidableEq

/-- Update-checker rewrite (lines 1156-1193): requires a nonempty URL
group; replaces the slug literal and then the URL literal (both guarded by
inequality with the new values), the slug first so the URL span's original
offsets stay valid (the URL literal precedes the slug in the call). -/
def pucPhase (content : Str) (m : PucMatch) (newDownloadURL newSlug : Str) :
    Except Unit Str :=
  if m.url.lo > 0 ∧ m.url.hi > m.url.lo then
    let oldDownloadURL := spanSlice content m.url
    let oldSlug := if m.slug.lo > 0 ∧ m.slug.hi > m.slug.lo then
        spanSlice content m.slug
      else []
    let c1 := if newSlug ≠ oldSlug then
        spliceStr content m.slug.lo m.slug.hi newSlug
      else content
    let c2 := if newDownloadURL ≠ oldDownloadURL then
        spliceStr c1 m.url.lo m.url.hi newDownloadURL
      else c1
    .ok c2
  else .error ()

/-- The full in-memory text transformation of processMainPHPFile: version
edits, then the timestamp edit, then the (mandatory) update-checker
rewrite.  Returns the patched text and the winning version. -/
def processMainPHPFileText (content : Str)
    (commentM classM defineM : Option Span)
    (luM : Option Span) (insM : Option (Nat × Nat × Nat))
    (pucM : Option PucMatch)
    (currentDate newDownloadURL newSlug : Str) : Except Unit (Str × Str) :=
  match versionEditPhase content commentM classM defineM with
  | .error e => .error e
  | .ok (c1, currentVersion) =>
    let c2 := timestampPhase c1 luM insM currentDate
    match pucM with
    | none => .error ()
    | some m =>
      match pucPhase c2 m newDownloadURL newSlug with
      | .error e => .error e
      | .ok c3 => .ok (c3, currentVersion)

/-- C2: for source text with doc-comment version `1.0.0` and class-field
version `1.2.0` (the only declarations present, matched at their spans),
with the timestamp marker matched at its span, and with an update-checker
call whose URL and slug are already current (so its rewrite leaves the text
unchanged), processMainPHPFile's text transformation succeeds with winning
version `1.2.0`, both declaration spans read `1.2.0` afterwards, and every
byte outside the comment-version span and the timestamp-marker span (the
segments `pre`, `mid`, `p1`, `p2`) is preserved verbatim — the edits are
applied so that no applied edit's offsets are invalidated by another
edit's length change. -/
theorem C2_theorem (pre mid p1 oldDate p2 date newURL newSlug : Str) (m : PucMatch)
    (hpuc : pucPhase (pre ++ "1.2.0".data ++ mid ++ "1.2.0".data ++ p1 ++ date ++ p2)
        m newURL newSlug
      = .ok (pre ++ "1.2.0".data ++ mid ++ "1.2.0".data ++ p1 ++ date ++ p2)) :
    processMainPHPFileText
      (pre ++ "1.0.0".data ++ mid ++ "1.2.0".data ++ p1 ++ oldDate ++ p2)
      (some ⟨pre.length, pre.length + 5⟩)
      (some ⟨pre.length + 5 + mid.length, pre.length + 5 + mid.length + 5⟩)
      none
      (some ⟨pre.length + 5 + mid.length + 5 + p1.length,
             pre.length + 5 + mid.length + 5 + p1.length + oldDate.length⟩)
      none
      (some m)
      date newURL newSlug
      = .ok (pre ++ "1.2.0".data ++ mid ++ "1.2.0".data ++ p1 ++ date ++ p2,
             "1.2.0".data) := by
  have hslc : sliceStr (pre ++ "1.0.0".data ++ mid ++ "1.2.0".data ++ p1 ++ oldDate ++ p2)
      pre.length (pre.length + 5) = "1.0.0".data :=
    sliceStr_at _ pre ("1.0.0".data) (mid ++ "1.2.0".data ++ p1 ++ oldDate ++ p2) _ _
      (by simp [List.append_assoc]) rfl rfl
  have hslcl : sliceStr (pre ++ "1.0.0".data ++ mid ++ "1.2.0".data ++ p1 ++ oldDate ++ p2)
      (pre.length + 5 + mid.length) (pre.length + 5 + mid.length + 5) = "1.2.0".data :=
    sliceStr_at _ (pre ++ "1.0.0".data ++ mid) ("1.2.0".data) (p1 ++ oldDate ++ p2) _ _
      (by simp [List.append_assoc]) (by simp; omega) (by simp; omega)
  have hgv1 : getHigherVersion ("1.0.0".data) ("1.2.0".data) = "1.2.0".data := by decide
  have hgv2 : getHigherVersion ("1.2.0".data) [] = "1.2.0".data := by decide
  have hspl : spliceStr (pre ++ "1.0.0".data ++ mid ++ "1.2.0".data ++ p1 ++ oldDate ++ p2)
      pre.length (pre.length + 5) ("1.2.0".data)
      = pre ++ "1.2.0".data ++ (mid ++ "1.2.0".data ++ p1 ++ oldDate ++ p2) :=
    spliceStr_at _ pre ("1.0.0".data) (mid ++ "1.2.0".data ++ p1 ++ oldDate ++ p2) _ _ _
      (by simp [List.append_assoc]) rfl rfl
  have e1 : versionEditPhase
      (pre ++ "1.0.0".data ++ mid ++ "1.2.0".data ++ p1 ++ oldDate ++ p2)
      (some ⟨pre.length, pre.length + 5⟩)
      (some ⟨pre.length + 5 + mid.length, pre.length + 5 + mid.length + 5⟩)
      none
      = .ok (pre ++ "1.2.0".data ++ (mid ++ "1.2.0".data ++ p1 ++ oldDate ++ p2),
             "1.2.0".data) := by
    simp only [versionEditPhase, spanSlice, hslc, hslcl, hgv1, hgv2]
    simpa using hspl
  have e2 : timestampPhase (pre ++ "1.2.0".data ++ (mid ++ "1.2.0".data ++ p1 ++ oldDate ++ p2))
      (some ⟨pre.length + 5 + mid.length + 5 + p1.length,
             pre.length + 5 + mid.length + 5 + p1.length + oldDate.length⟩) none date
      = pre ++ "1.2.0".data ++ mid ++ "1.2.0".data ++ p1 ++ date ++ p2 := by
    have h := spliceStr_at
      (pre ++ "1.2.0".data ++ (mid ++ "1.2.0".data ++ p1 ++ oldDate ++ p2))
      (pre ++ "1.2.0".data ++ mid ++ "1.2.0".data ++ p1) oldDate p2 date
      (pre.length + 5 + mid.length + 5 + p1.length)
      (pre.length + 5 + mid.length + 5 + p1.length + oldDate.length)
      (by simp [List.append_assoc]) (by simp; omega) (by simp; omega)
    simp only [timestampPhase]
    rw [h]
  simp only [processMainPHPFileText, e1]
  rw [e2, hpuc]

/-- C2 witness: the theorem applied to a concrete 21-byte source text. -/
theorem C2_witness :
    processMainPHPFileText ("A1.0.0B1.2.0CD'u','s'".data)
      (some ⟨1, 6⟩) (some ⟨7, 12⟩) none (some ⟨13, 14⟩) none
      (some ⟨⟨0, 0⟩, ⟨15, 16⟩, ⟨0, 0⟩, ⟨19, 20⟩⟩)
      ("E".data) ("u".data) ("s".data)
      = .ok ("A1.2.0B1.2.0CE'u','s'".data, "1.2.0".data) := by
  have h := C2_theorem ("A".data) ("B".data) ("C".data) ("D".data)
    ("'u','s'".data) ("E".data) ("u".data) ("s".data)
    ⟨⟨0, 0⟩, ⟨15, 16⟩, ⟨0, 0⟩, ⟨19, 20⟩⟩ (by decide)
  exact h

/-! ## JSON values and string-keyed maps

`JVal` models the JSON values handled by encoding/json.  JSON numbers in
the descriptor (versions are strings; counts and ratings are integers) are
modeled as `Int`.  A Go `map[string]interface{}` is modeled as an
association list with map semantics through `mget`/`mset` (the parsed
object of a JSON document has pairwise-distinct keys, duplicates having
been collapsed by the decoder). -/

inductive JVal where
  | null : JVal
  | bool (b : Bool) : JVal
  | num (n : Int) : JVal
  | str (s : Str) : JVal
  | arr (xs : List JVal) : JVal
  | obj (fields : List (Str × JVal)) : JVal

def mget {β : Type} : List (Str × β) → Str → Option β
  | [], _ => none
  | (k2, v) :: rest, k => if k2 = k then some v else mget rest k

def mset {β : Type} : List (Str × β) → Str → β → List (Str × β)
  | [], k, v => [(k, v)]
  | (k2, w) :: rest, k, v =>
    if k2 = k then (k, v) :: rest else (k2, w) :: mset rest k v

theorem mget_mset_self {β : Type} (m : List (Str × β)) (k : Str) (v : β) :
    mget (mset m k v) k = some v := by
  induction m with
  | nil => simp [mget, mset]
  | cons kv rest ih =>
    obtain ⟨k2, w⟩ := kv
    by_cases h : k2 = k
    · simp [mset, mget, h]
    · simp [mset, mget, h, ih]

theorem mget_mset_ne {β : Type} (m : List (Str × β)) (k k2 : Str) (v : β)
    (h : k2 ≠ k) : mget (mset m k v) k2 = mget m k2 := by
  induction m with
  | nil => simp [mget, mset, Ne.symm h]
  | cons kv rest ih =>
    obtain ⟨k3, w⟩ := kv
    by_cases h3 : k3 = k
    · subst h3
      simp [mset, mget, Ne.symm h]
    · simp [mset, mget, h3, ih]

/-! ## The UpdateInfo schema (struct declaration, lines 64-93)

Fields in declaration order with their json tags; `Extra` carries the tag
`"-"` and therefore never takes part in (un)marshaling, so it is omitted
from the model. -/

structure UpdateInfo where
  version : Str
  lastUpdated : Str
  downloadURL : Str
  details : Str
  detailsURL : Str
  upgradeNotice : Str
  testedWP : Str
  requiresWP : Str
  requiresPHP : Str
  homepage : Str
  sections : List (Str × Str)
  banners : List (Str × Str)
  icons : List (Str × Str)
  screenshots : List (List (Str × Str))
  contributors : List (Str × Str)
  tags : List Str
  donateLink : Str
  ratings : List (Str × Int)
  rating : Int
  numRatings : Int
  downloaded : Int
  activeInstalls : Int
  added : Str
  slug : Str
  name : Str
  author : Str
  authorProfile : Str
deriving DecidableEq

/-! ### json.Unmarshal into the struct

An absent key or a JSON null leaves the field at its zero value; a value
of the wrong shape makes Unmarshal fail. -/

def expectStr : Option JVal → Except Unit Str
  | none => .ok []
  | some .null => .ok []
  | some (.str s) => .ok s
  | some _ => .error ()

def expectInt : Option JVal → Except Unit Int
  | none => .ok 0
  | some .null => .ok 0
  | some (.num n) => .ok n
  | some _ => .error ()

def strFields : List (Str × JVal) → Except Unit (List (Str × Str))
  | [] => .ok []
  | (k, .str s) :: rest =>
    match strFields rest with
    | .ok r => .ok ((k, s) :: r)
    | .error e => .error e
  | _ :: _ => .error ()

def intFields : List (Str × JVal) → Except Unit (List (Str × Int))
  | [] => .ok []
  | (k, .num n) :: rest =>
    match intFields rest with
    | .ok r => .ok ((k, n) :: r)
    | .error e => .error e
  | _ :: _ => .error ()

def expectStrMap : Option JVal → Except Unit (List (Str × Str))
  | none => .ok []
  | some .null => .ok []
  | some (.obj fs) => strFields fs
  | some _ => .error ()

def expectIntMap : Option JVal → Except Unit (List (Str × Int))
  | none => .ok []
  | some .null => .ok []
  | some (.obj fs) => intFields fs
  | some _ => .error ()

def strItems : List JVal → Except Unit (List Str)
  | [] => .ok []
  | .str s :: rest =>
    match strItems rest with
    | .ok r => .ok (s :: r)
    | .error e => .error e
  | _ :: _ => .error ()

def expectStrList : Option JVal → Except Unit (List Str)
  | none => .ok []
  | some .null => .ok []
  | some (.arr xs) => strItems xs
  | some _ => .error ()

def strMapItems : List JVal → Except Unit (List (List (Str × Str)))
  | [] => .ok []
  | .obj fs :: rest =>
    match strFields fs, strMapItems rest with
    | .ok f, .ok r => .ok (f :: r)
    | .error e, _ => .error e
    | _, .error e => .error e
  | _ :: _ => .error ()

def expectStrMapList : Option JVal → Except Unit (List (List (Str × Str)))
  | none => .ok []
  | some .null => .ok []
  | some (.arr xs) => strMapItems xs
  | some _ => .error ()

def decodeUpdateInfo (doc : List (Str × JVal)) : Except Unit UpdateInfo := do
  let version ← expectStr (mget doc ("version".data))
  let lastUpdated ← expectStr (mget doc ("last_updated".data))
  let downloadURL ← expectStr (mget doc ("download_url".data))
  let details ← expectStr (mget doc ("details".data))
  let detailsURL ← expectStr (mget doc ("details_url".data))
  let upgradeNotice ← expectStr (mget doc ("upgrade_notice".data))
  let testedWP ← expectStr (mget doc ("tested".data))
  let requiresWP ← expectStr (mget doc ("requires".data))
  let requiresPHP ← expectStr (mget doc ("requires_php".data))
  let homepage ← expectStr (mget doc ("homepage".data))
  let sections ← expectStrMap (mget doc ("sections".data))
  let banners ← expectStrMap (mget doc ("banners".data))
  let icons ← expectStrMap (mget doc ("icons".data))
  let screenshots ← expectStrMapList (mget doc ("screenshots".data))
  let contributors ← expectStrMap (mget doc ("contributors".data))
  let tags ← expectStrList (mget doc ("tags".data))
  let donateLink ← expectStr (mget doc ("donate_link".data))
  let ratings ← expectIntMap (mget doc ("ratings".data))
  let rating ← expectInt (mget doc ("rating".data))
  let numRatings ← expectInt (mget doc ("num_ratings".data))
  let downloaded ← expectInt (mget doc ("downloaded".data))
  let activeInstalls ← expectInt (mget doc ("active_installs".data))
  let added ← expectStr (mget doc ("added".data))
  let slug ← expectStr (mget doc ("slug".data))
  let name ← expectStr (mget doc ("name".data))
  let author ← expectStr (mget doc ("author".data))
  let authorProfile ← expectStr (mget doc ("author_homepage".data))
  return ⟨version, lastUpdated, downloadURL, details, detailsURL,
    upgradeNotice, testedWP, requiresWP, requiresPHP, homepage, sections,
    banners, icons, screenshots, contributors, tags, donateLink, ratings,
    rating, numRatings, downloaded, activeInstalls, added, slug, name,
    author, authorProfile⟩

/-! ### json.Marshal of the struct

Emitted in field-declaration order; a field carrying `omitempty` is
dropped at its zero value (empty string, empty map or slice, zero
number). -/

def jStrMap (m : List (Str × Str)) : JVal := .obj (m.map fun p => (p.1, .str p.2))

def jIntMap (m : List (Str × Int)) : JVal := .obj (m.map fun p => (p.1, .num p.2))

def optStrField (k v : Str) : List (Str × JVal) :=
  if v = [] then [] else [(k, .str v)]

def optIntField (k : Str) (n : Int) : List (Str × JVal) :=
  if n = 0 then [] else [(k, .num n)]

def optStrMapField (k : Str) (m : List (Str × Str)) : List (Str × JVal) :=
  if m = [] then [] else [(k, jStrMap m)]

def optIntMapField (k : Str) (m : List (Str × Int)) : List (Str × JVal) :=
  if m = [] then [] else [(k, jIntMap m)]

def optStrListField (k : Str) (l : List Str) : List (Str × JVal) :=
  if l = [] then [] else [(k, .arr (l.map JVal.str))]

def optStrMapListField (k : Str) (l : List (List (Str × Str))) : List (Str × JVal) :=
  if l = [] then [] else [(k, .arr (l.map jStrMap))]

def marshalUpdateInfo (ui : UpdateInfo) : List (Str × JVal) :=
  [("version".data, .str ui.version),
   ("last_updated".data, .str ui.lastUpdated),
   ("download_url".data, .str ui.downloadURL)]
  ++ optStrField ("details".data) ui.details
  ++ optStrField ("details_url".data) ui.detailsURL
  ++ optStrField ("upgrade_notice".data) ui.upgradeNotice
  ++ optStrField ("tested".data) ui.testedWP
  ++ optStrField ("requires".data) ui.requiresWP
  ++ optStrField ("requires_php".data) ui.requiresPHP
  ++ optStrField ("homepage".data) ui.homepage
  ++ optStrMapField ("sections".data) ui.sections
  ++ optStrMapField ("banners".data) ui.banners
  ++ optStrMapField ("icons".data) ui.icons
  ++ optStrMapListField ("screenshots".data) ui.screenshots
  ++ optStrMapField ("contributors".data) ui.contributors
  ++ optStrListField ("tags".data) ui.tags
  ++ optStrField ("donate_link".data) ui.donateLink
  ++ optIntMapField ("ratings".data) ui.ratings
  ++ optIntField ("rating".data) ui.rating
  ++ optIntField ("num_ratings".data) ui.numRatings
  ++ optIntField ("downloaded".data) ui.downloaded
  ++ optIntField ("active_installs".data) ui.activeInstalls
  ++ optStrField ("added".data) ui.added
  ++ optStrField ("slug".data) ui.slug
  ++ optStrField ("name".data) ui.name
  ++ optStrField ("author".data) ui.author
  ++ optStrField ("author_homepage".data) ui.authorProfile

/-! ## getUpdateInfo / processUpdateInfo / setUpdateInfo
(lines 1271-1301, 1303-1314, 1316-1355) -/

/-- getUpdateInfo: the parsed JSON object of update_info.json is read once
as the open map `allData` (the object itself) and once through the typed
schema; a schema mismatch fails the read. -/
def getUpdateInfo (doc : List (Str × JVal)) :
    Except Unit (UpdateInfo × List (Str × JVal)) :=
  match decodeUpdateInfo doc with
  | .error e => .error e
  | .ok ui => .ok (ui, doc)

/-- processUpdateInfo: bump the typed view's version and last-updated
timestamp exactly when the comparator picks `currentVersion` over the
stored version and the two differ.  `now` is the formatted current time. -/
def processUpdateInfo (ui : UpdateInfo) (currentVersion now : Str) : UpdateInfo :=
  if getHigherVersion ui.version currentVersion = currentVersion ∧
      ui.version ≠ currentVersion then
    { ui with version := currentVersion, lastUpdated := now }
  else ui

def overlayMap (base updates : List (Str × JVal)) : List (Str × JVal) :=
  updates.foldl (fun acc kv => mset acc kv.1 kv.2) base

/-- setUpdateInfo, data part: marshal the typed view back to a map and
overlay it onto the open map, known fields overriding same-named open-map
keys (the file backup and rewrite are modeled by renameBackupWrite). -/
def setUpdateInfoData (ui : UpdateInfo) (allData : List (Str × JVal)) :
    List (Str × JVal) :=
  overlayMap allData (marshalUpdateInfo ui)

/-! ## Claims C3 and C4: metadata round-trip and reconciliation -/

theorem overlay_not_mem (updates : List (Str × JVal)) (k : Str)
    (base : List (Str × JVal)) (h : ∀ kv ∈ updates, kv.1 ≠ k) :
    mget (overlayMap base updates) k = mget base k := by
  induction updates generalizing base with
  | nil => rfl
  | cons kv rest ih =>
    obtain ⟨k1, v1⟩ := kv
    have h1 : k1 ≠ k := h (k1, v1) (by simp)
    have hrest : ∀ kv ∈ rest, kv.1 ≠ k := fun kv hkv => h kv (by simp [hkv])
    show mget (overlayMap (mset base k1 v1) rest) k = mget base k
    rw [ih (mset base k1 v1) hrest]
    exact mget_mset_ne base k1 k v1 (Ne.symm h1)

theorem overlay_mem (updates : List (Str × JVal)) (k : Str) (v : JVal)
    (base : List (Str × JVal)) (hnd : (updates.map Prod.fst).Nodup)
    (hm : mget updates k = some v) :
    mget (overlayMap base updates) k = some v := by
  induction updates generalizing base with
  | nil => simp [mget] at hm
  | cons kv rest ih =>
    obtain ⟨k1, v1⟩ := kv
    simp only [List.map_cons, List.nodup_cons] at hnd
    by_cases h1 : k1 = k
    · subst h1
      have hv : v1 = v := by simpa [mget] using hm
      subst hv
      show mget (overlayMap (mset base k1 v1) rest) k1 = some v1
      rw [overlay_not_mem rest k1 (mset base k1 v1)
        (fun kv hkv heq => hnd.1 (heq ▸ List.mem_map_of_mem Prod.fst hkv))]
      exact mget_mset_self base k1 v1
    · simp only [mget, if_neg h1] at hm
      exact ih (mset base k1 v1) hnd.2 hm

/-- The json keys of the UpdateInfo schema, in declaration order. -/
def schemaKeys : List Str :=
  ["version".data, "last_updated".data, "download_url".data, "details".data,
   "details_url".data, "upgrade_notice".data, "tested".data, "requires".data,
   "requires_php".data, "homepage".data, "sections".data, "banners".data,
   "icons".data, "screenshots".data, "contributors".data, "tags".data,
   "donate_link".data, "ratings".data, "rating".data, "num_ratings".data,
   "downloaded".data, "active_installs".data, "added".data, "slug".data,
   "name".data, "author".data, "author_homepage".data]

theorem schemaKeys_nodup : schemaKeys.Nodup := by decide

theorem optStrField_keys (k v : Str) :
    List.Sublist ((optStrField k v).map Prod.fst) [k] := by
  unfold optStrField; split <;> simp

theorem optIntField_keys (k : Str) (n : Int) :
    List.Sublist ((optIntField k n).map Prod.fst) [k] := by
  unfold optIntField; split <;> simp

theorem optStrMapField_keys (k : Str) (m : List (Str × Str)) :
    List.Sublist ((optStrMapField k m).map Prod.fst) [k] := by
  unfold optStrMapField; split <;> simp

theorem optIntMapField_keys (k : Str) (m : List (Str × Int)) :
    List.Sublist ((optIntMapField k m).map Prod.fst) [k] := by
  unfold optIntMapField; split <;> simp

theorem optStrListField_keys (k : Str) (l : List Str) :
    List.Sublist ((optStrListField k l).map Prod.fst) [k] := by
  unfold optStrListField; split <;> simp

theorem optStrMapListField_keys (k : Str) (l : List (List (Str × Str))) :
    List.Sublist ((optStrMapListField k l).map Prod.fst) [k] := by
  unfold optStrMapListField; split <;> simp

theorem marshal_keys_sublist (ui : UpdateInfo) :
    List.Sublist ((marshalUpdateInfo ui).map Prod.fst) schemaKeys := by
  have hsk : schemaKeys =
      ["version".data, "last_updated".data, "download_url".data]
      ++ ["details".data] ++ ["details_url".data] ++ ["upgrade_notice".data]
      ++ ["tested".data] ++ ["requires".data] ++ ["requires_php".data]
      ++ ["homepage".data] ++ ["sections".data] ++ ["banners".data]
      ++ ["icons".data] ++ ["screenshots".data] ++ ["contributors".data]
      ++ ["tags".data] ++ ["donate_link".data] ++ ["ratings".data]
      ++ ["rating".data] ++ ["num_ratings".data] ++ ["downloaded".data]
      ++ ["active_installs".data] ++ ["added".data] ++ ["slug".data]
      ++ ["name".data] ++ ["author".data] ++ ["author_homepage".data] := rfl
  rw [hsk]
  unfold marshalUpdateInfo
  simp only [List.map_append]
  gcongr <;>
    first
      | exact List.Sublist.refl _
      | exact optStrField_keys _ _
      | exact optIntField_keys _ _
      | exact optStrMapField_keys _ _
      | exact optIntMapField_keys _ _
      | exact optStrListField_keys _ _
      | exact optStrMapListField_keys _ _

theorem marshal_keys_nodup (ui : UpdateInfo) :
    ((marshalUpdateInfo ui).map Prod.fst).Nodup :=
  List.Nodup.sublist (marshal_keys_sublist ui) schemaKeys_nodup

/-- C3: reading a descriptor document (getUpdateInfo) and persisting it
(setUpdateInfo's marshal-and-overlay) preserves verbatim every top-level
key that the typed schema does not serialize — e.g. an unrecognized key
keeps its exact value — and every key the typed view serializes is written
with the typed view's value, overriding any same-named open-map key. -/
theorem C3_theorem (doc : List (Str × JVal)) (ui : UpdateInfo)
    (all : List (Str × JVal)) (h : getUpdateInfo doc = .ok (ui, all)) :
    (∀ k, (∀ kv ∈ marshalUpdateInfo ui, kv.1 ≠ k) →
      mget (setUpdateInfoData ui all) k = mget doc k) ∧
    (∀ k v, mget (marshalUpdateInfo ui) k = some v →
      mget (setUpdateInfoData ui all) k = some v) := by
  have hall : all = doc := by
    unfold getUpdateInfo at h
    cases hd : decodeUpdateInfo doc with
    | error e => rw [hd] at h; exact absurd h (by simp)
    | ok ui2 =>
      rw [hd] at h
      have : (ui2, doc) = (ui, all) := by
        injection h
      exact (Prod.mk.injEq _ _ _ _ ▸ this).2.symm
  constructor
  · intro k hk
    unfold setUpdateInfoData
    rw [overlay_not_mem _ _ _ hk, hall]
  · intro k v hm
    exact overlay_mem _ _ _ _ (marshal_keys_nodup ui) hm

/-- An UpdateInfo with every field at its zero value. -/
def baseUI : UpdateInfo :=
  ⟨[], [], [], [], [], [], [], [], [], [], [], [], [], [], [], [], [], [],
   0, 0, 0, 0, [], [], [], [], []⟩

/-- Concrete descriptor with an unrecognized key `"x": {"y": 1}`. -/
def c3doc : List (Str × JVal) :=
  [("version".data, .str ("1.0".data)), ("x".data, .obj [("y".data, .num 1)])]

def c3ui : UpdateInfo := { baseUI with version := "1.0".data }

/-- C3 witness: after read-then-persist of `c3doc`, the unrecognized key
`"x"` still holds `{"y":1}` and `"version"` holds the typed value. -/
theorem C3_witness :
    mget (setUpdateInfoData c3ui c3doc) ("x".data)
      = some (.obj [("y".data, .num 1)]) ∧
    mget (setUpdateInfoData c3ui c3doc) ("version".data)
      = some (.str ("1.0".data)) := by
  have h := C3_theorem c3doc c3ui c3doc (by rfl)
  constructor
  · rw [h.1 ("x".data) (by decide)]; rfl
  · exact h.2 ("version".data) (.str ("1.0".data)) (by rfl)

/-- C4: processUpdateInfo rewrites the version and last-updated fields if
and only if the comparator picks the winning version over the stored one
and the two differ; otherwise the record is returned untouched; and a
second reconciliation with the same winning version is a no-op (so no
second write or backup can result from it). -/
theorem C4_theorem (ui : UpdateInfo) (cur now now2 : Str) :
    ((getHigherVersion ui.version cur = cur ∧ ui.version ≠ cur) →
      processUpdateInfo ui cur now
        = { ui with version := cur, lastUpdated := now }) ∧
    (¬(getHigherVersion ui.version cur = cur ∧ ui.version ≠ cur) →
      processUpdateInfo ui cur now = ui) ∧
    processUpdateInfo (processUpdateInfo ui cur now) cur now2
      = processUpdateInfo ui cur now := by
  refine ⟨fun h => ?_, fun h => ?_, ?_⟩
  · unfold processUpdateInfo; rw [if_pos h]
  · unfold processUpdateInfo; rw [if_neg h]
  · by_cases h : getHigherVersion ui.version cur = cur ∧ ui.version ≠ cur
    · have h1 : processUpdateInfo ui cur now
          = { ui with version := cur, lastUpdated := now } := by
        unfold processUpdateInfo; rw [if_pos h]
      rw [h1]
      unfold processUpdateInfo
      simp
    · have h1 : processUpdateInfo ui cur now = ui := by
        unfold processUpdateInfo; rw [if_neg h]
      rw [h1]
      unfold processUpdateInfo; rw [if_neg h]

/-- C4 witness: reconciling `1.0.0` against winner `1.2.0` updates version
and timestamp, and reconciling again is a no-op. -/
theorem C4_witness :
    processUpdateInfo { baseUI with version := "1.0.0".data }
        ("1.2.0".data) ("t1".data)
      = { baseUI with version := "1.2.0".data, lastUpdated := "t1".data } ∧
    processUpdateInfo
        (processUpdateInfo { baseUI with version := "1.0.0".data }
          ("1.2.0".data) ("t1".data)) ("1.2.0".data) ("t2".data)
      = processUpdateInfo { baseUI with version := "1.0.0".data }
          ("1.2.0".data) ("t1".data) := by
  have h := C4_theorem { baseUI with version := "1.0.0".data }
    ("1.2.0".data) ("t1".data) ("t2".data)
  exact ⟨h.1 (by decide), h.2.2⟩

/-! ## path/filepath.Match (Go standard library, non-Windows)

shouldSkip filters with filepath.Match, so the matcher is embedded from
the Go standard-library implementation (the current one, in which a
syntactically invalid pattern yields ErrBadPattern for every name: after a
mismatch the remainder of the pattern is still checked for validity).
Characters model runes, `/` is the separator; the utf8 RuneError path
cannot arise in this model.

The loops consume at least one pattern byte per iteration; the recursions
are expressed with an explicit fuel argument bounded by the pattern length
(`scanChunk_rest_lt` below records the strict decrease that makes
`length + 1` fuel sufficient), keeping every function structurally
recursive and evaluable by the kernel. -/

/-- Leading-star scan of Go scanChunk: strips `*`s, records their presence. -/
def scanStars : Str → Bool × Str
  | [] => (false, [])
  | c :: r => if c = '*' then (true, (scanStars r).2) else (false, c :: r)

/-- Chunk scan of Go scanChunk: collects pattern bytes up to the next
top-level (not inside `[...]`) `*`, a backslash protecting the byte after
it. -/
def scanChunkBody (inrange : Bool) : Str → Str × Str
  | [] => ([], [])
  | '\\' :: [] => (['\\'], [])
  | '\\' :: d :: r2 =>
    let p := scanChunkBody inrange r2
    ('\\' :: d :: p.1, p.2)
  | '[' :: r =>
    let p := scanChunkBody true r
    ('[' :: p.1, p.2)
  | ']' :: r =>
    let p := scanChunkBody false r
    (']' :: p.1, p.2)
  | '*' :: r =>
    if inrange then
      let p := scanChunkBody inrange r
      ('*' :: p.1, p.2)
    else ([], '*' :: r)
  | c :: r =>
    let p := scanChunkBody inrange r
    (c :: p.1, p.2)

/-- Go scanChunk: (star, chunk, rest). -/
def scanChunk (pattern : Str) : Bool × Str × Str :=
  let s := scanStars pattern
  let p := scanChunkBody false s.2
  (s.1, p.1, p.2)

/-- Go getEsc: one (possibly escaped) class character; fails on an empty
chunk, a leading `-` or `]`, a trailing escape, or nothing left after the
character (a class must still be closed). -/
def getEsc : Str → Except Unit (Char × Str)
  | [] => .error ()
  | c :: r =>
    if c = '-' ∨ c = ']' then .error ()
    else if c = '\\' then
      match r with
      | [] => .error ()
      | d :: r2 => if r2 = [] then .error () else .ok (d, r2)
    else if r = [] then .error () else .ok (c, r)

/-- The range-parsing loop of Go matchChunk's `[` case.  `r = none` means
the match has already failed and no character is consumed or tested.
Returns (match, rest of chunk past the closing `]`). -/
def classRanges (fuel : Nat) (r : Option Char) (chunk : Str)
    (matched : Bool) (nrange : Nat) : Except Unit (Bool × Str) :=
  match fuel with
  | 0 => .error ()
  | fuel + 1 =>
    if chunk.headD ' ' = ']' ∧ 0 < nrange then .ok (matched, chunk.tail)
    else
      match getEsc chunk with
      | .error e => .error e
      | .ok (lo, chunk1) =>
        let hiRes : Except Unit (Char × Str) :=
          match chunk1 with
          | c :: r2 => if c = '-' then getEsc r2 else .ok (lo, chunk1)
          | [] => .ok (lo, chunk1)
        match hiRes with
        | .error e => .error e
        | .ok (hi, chunk2) =>
          let matched2 := match r with
            | some rc => matched || (lo ≤ rc ∧ rc ≤ hi)
            | none => matched
          classRanges fuel r chunk2 matched2 (nrange + 1)

/-- Result of Go matchChunk: bad pattern, mismatch (ok=false, no error),
or a match leaving `rest` of the name. -/
inductive ChunkRes where
  | err : ChunkRes
  | miss : ChunkRes
  | rest (t : Str) : ChunkRes
deriving DecidableEq

/-- The rune consumed (and whether one is consumed at all) at the start of
Go matchChunk's `[` case. -/
def classChar (failed : Bool) (s : Str) : Option Char × Str :=
  if failed then (none, s)
  else match s with
    | [] => (none, s)
    | x :: xs => (some x, xs)

/-- The possibly-negated marker at the start of a character class. -/
def classNeg (chunkRest : Str) : Bool × Str :=
  match chunkRest with
  | d :: r2 => if d = '^' then (true, r2) else (false, chunkRest)
  | [] => (false, chunkRest)

/-- Go matchChunk's main loop.  After a failure the chunk is still parsed
(no longer reading the name) so that bad patterns are always reported. -/
def matchChunkF (fuel : Nat) (failed : Bool) (chunk s : Str) : ChunkRes :=
  match fuel with
  | 0 => .err
  | fuel + 1 =>
    match chunk with
    | [] => if failed then .miss else .rest s
    | c :: chunkRest =>
      let failed1 := failed || s.isEmpty
      if c = '[' then
        let rs := classChar failed1 s
        let ng := classNeg chunkRest
        match classRanges (ng.2.length + 1) rs.1 ng.2 false 0 with
        | .error _ => .err
        | .ok (m, chunk3) =>
          matchChunkF fuel (failed1 || (m == ng.1)) chunk3 rs.2
      else if c = '?' then
        if failed1 then matchChunkF fuel failed1 chunkRest s
        else
          match s with
          | [] => matchChunkF fuel true chunkRest []
          | x :: xs => matchChunkF fuel (x = '/') chunkRest xs
      else if c = '\\' then
        match chunkRest with
        | [] => .err
        | d :: chunkRest2 =>
          if failed1 then matchChunkF fuel failed1 chunkRest2 s
          else
            match s with
            | [] => matchChunkF fuel true chunkRest2 []
            | x :: xs => matchChunkF fuel (d ≠ x) chunkRest2 xs
      else
        if failed1 then matchChunkF fuel failed1 chunkRest s
        else
          match s with
          | [] => matchChunkF fuel true chunkRest []
          | x :: xs => matchChunkF fuel (c ≠ x) chunkRest xs

def matchChunk (chunk s : Str) : ChunkRes :=
  matchChunkF (chunk.length + 1) false chunk s

/-- Result of the star-backtracking loop inside Go Match. -/
inductive StarRes where
  | err : StarRes
  | miss : StarRes
  | continueWith (t : Str) : StarRes
deriving DecidableEq

/-- The `if star` loop of Go Match: try the chunk at every later offset of
the name, not crossing a separator. -/
def starLoop (chunk patRest : Str) : Str → StarRes
  | [] => .miss
  | x :: rest =>
    if x = '/' then .miss
    else
      match matchChunk chunk rest with
      | .rest t =>
        if patRest = [] ∧ t ≠ [] then starLoop chunk patRest rest
        else .continueWith t
      | .err => .err
      | .miss => starLoop chunk patRest rest

/-- The final loop of Go Match: before returning a no-error mismatch,
check that the remaining chunks are syntactically valid. -/
def validChunksF (fuel : Nat) (pattern : Str) : Bool :=
  match fuel with
  | 0 => false
  | fuel + 1 =>
    match pattern with
    | [] => true
    | _ :: _ =>
      let sc := scanChunk pattern
      match matchChunk sc.2.1 [] with
      | .err => false
      | _ => validChunksF fuel sc.2.2

/-- Go Match's main loop over (star, chunk) segments of the pattern. -/
def goMatchF (fuel : Nat) (pattern name : Str) : Except Unit Bool :=
  match fuel with
  | 0 => .error ()
  | fuel + 1 =>
    match pattern with
    | [] => .ok name.isEmpty
    | _ :: _ =>
      let sc := scanChunk pattern
      let star := sc.1
      let chunk := sc.2.1
      let rest := sc.2.2
      if star ∧ chunk = [] then .ok (!(name.contains '/'))
      else
        match matchChunk chunk name with
        | .err => .error ()
        | .rest t =>
          if t = [] ∨ rest ≠ [] then goMatchF fuel rest t
          else
            match (if star then starLoop chunk rest name else .miss) with
            | .err => .error ()
            | .continueWith t2 => goMatchF fuel rest t2
            | .miss =>
              if validChunksF (rest.length + 1) rest then .ok false
              else .error ()
        | .miss =>
          match (if star then starLoop chunk rest name else .miss) with
          | .err => .error ()
          | .continueWith t2 => goMatchF fuel rest t2
          | .miss =>
            if validChunksF (rest.length + 1) rest then .ok false
            else .error ()

/-- Go filepath.Match. -/
def goMatch (pattern name : Str) : Except Unit Bool :=
  goMatchF (pattern.length + 1) pattern name

/-- `matched, err := filepath.Match(...)` combined as `err == nil && matched`,
the exact use in shouldSkip. -/
def matchOk (pattern name : Str) : Bool :=
  match goMatch pattern name with
  | .ok true => true
  | _ => false

/-- The syntactic-validity check Go Match itself applies to the unconsumed
pattern remainder; a pattern is bad exactly when this fails. -/
def patternValid (p : Str) : Bool := validChunksF (p.length + 1) p

/-! ### Termination bookkeeping for the fueled matcher loops

Every Match-loop iteration consumes at least one pattern byte, so the
`length + 1` fuel given by the wrappers is sufficient; these lemmas record
that, and let facts proved at one sufficient fuel transfer to another. -/

theorem scanChunkBody_len (b : Bool) (p : Str) :
    (scanChunkBody b p).1.length + (scanChunkBody b p).2.length = p.length := by
  induction b, p using scanChunkBody.induct <;>
    simp_all [scanChunkBody] <;> omega

theorem scanChunkBody_ne (b : Bool) (p : Str) (h : p ≠ [])
    (h2 : p.head? ≠ some '*') : (scanChunkBody b p).1 ≠ [] := by
  induction b, p using scanChunkBody.induct <;> simp_all [scanChunkBody]

theorem scanStars_len (p : Str) :
    (scanStars p).2.length ≤ p.length ∧
      ((scanStars p).1 = true → (scanStars p).2.length < p.length) := by
  induction p with
  | nil => simp [scanStars]
  | cons c r ih =>
    by_cases h : c = '*'
    · simp only [scanStars, if_pos h]
      exact ⟨by simpa using Nat.le_succ_of_le ih.1, fun _ => by
        simpa using Nat.lt_succ_of_le ih.1⟩
    · simp [scanStars, h]

theorem scanStars_false (p : Str) (h : (scanStars p).1 = false) :
    (scanStars p).2 = p := by
  cases p with
  | nil => rfl
  | cons c r =>
    by_cases hc : c = '*'
    · simp [scanStars, hc] at h
    · simp [scanStars, hc]

theorem scanStars_head (p : Str) : (scanStars p).2.head? ≠ some '*' := by
  induction p with
  | nil => simp [scanStars]
  | cons c r ih =>
    by_cases hc : c = '*'
    · simpa [scanStars, hc] using ih
    · simp [scanStars, hc]

theorem scanChunk_rest_lt (p : Str) (h : p ≠ []) :
    (scanChunk p).2.2.length < p.length := by
  by_cases hstar : (scanStars p).1 = true
  · have h1 := (scanStars_len p).2 hstar
    have hlen := scanChunkBody_len false (scanStars p).2
    simp only [scanChunk]
    omega
  · have hp := scanStars_false p (by simpa using hstar)
    have hne := scanChunkBody_ne false (scanStars p).2
      (by rw [hp]; exact h) (scanStars_head p)
    have hpos : 0 < (scanChunkBody false (scanStars p).2).1.length :=
      List.length_pos.mpr hne
    have hlen := scanChunkBody_len false (scanStars p).2
    have hle := (scanStars_len p).1
    simp only [scanChunk]
    omega

theorem scanChunk_chunk_nil (p : Str) (h : (scanChunk p).2.1 = []) :
    (scanChunk p).2.2 = [] := by
  cases hp2 : (scanStars p).2 with
  | nil => simp [scanChunk, hp2, scanChunkBody]
  | cons c r =>
    have hne := scanChunkBody_ne false (scanStars p).2
      (by rw [hp2]; simp) (scanStars_head p)
    exact absurd h hne

theorem validChunksF_mono (n : Nat) : ∀ (m : Nat) (p : Str),
    p.length < n → p.length < m → validChunksF n p = validChunksF m p := by
  induction n with
  | zero => intro m p h; omega
  | succ n ih =>
    intro m p hn hm
    cases m with
    | zero => omega
    | succ m =>
      cases p with
      | nil => rfl
      | cons c r =>
        have hlt := scanChunk_rest_lt (c :: r) (by simp)
        simp only [validChunksF]
        cases matchChunk (scanChunk (c :: r)).2.1 [] with
        | err => rfl
        | miss => exact ih m _ (by omega) (by omega)
        | rest t => exact ih m _ (by omega) (by omega)

/-! ### A syntactically invalid pattern errors for every name

In the current Go matcher ErrBadPattern depends only on the pattern, never
on the name: classRanges consumes the chunk identically whatever character
is being tested, and matchChunk keeps parsing after a mismatch. -/

theorem classRanges_shape (fuel : Nat) : ∀ (chunk : Str) (r r' : Option Char)
    (m m' : Bool) (n : Nat),
    (classRanges fuel r chunk m n = .error () ∧
     classRanges fuel r' chunk m' n = .error ()) ∨
    (∃ b b' c, classRanges fuel r chunk m n = .ok (b, c) ∧
               classRanges fuel r' chunk m' n = .ok (b', c)) := by
  induction fuel with
  | zero => intro chunk r r' m m' n; exact Or.inl ⟨rfl, rfl⟩
  | succ fuel ih =>
    intro chunk r r' m m' n
    by_cases hbrk : chunk.headD ' ' = ']' ∧ 0 < n
    · right
      refine ⟨m, m', chunk.tail, ?_, ?_⟩ <;>
        (simp only [classRanges]; rw [if_pos hbrk])
    · cases hesc : getEsc chunk with
      | error e =>
        left
        constructor <;> (simp only [classRanges]; rw [if_neg hbrk, hesc])
      | ok lc =>
        obtain ⟨lo, chunk1⟩ := lc
        cases hhi : (match chunk1 with
          | c :: r2 => if c = '-' then getEsc r2 else Except.ok (lo, chunk1)
          | [] => Except.ok (lo, chunk1)) with
        | error e =>
          left
          constructor <;>
            (simp only [classRanges]; rw [if_neg hbrk, hesc]; simp only []; rw [hhi])
        | ok hc =>
          obtain ⟨hi, chunk2⟩ := hc
          have hg : ∀ (rr : Option Char) (mm : Bool),
              classRanges (fuel + 1) rr chunk mm n
                = classRanges fuel rr chunk2
                    (match rr with
                      | some rc => mm || decide (lo ≤ rc ∧ rc ≤ hi)
                      | none => mm) (n + 1) := by
            intro rr mm
            simp only [classRanges]
            rw [if_neg hbrk, hesc]
            simp only []
            rw [hhi]
          rw [hg r m, hg r' m']
          exact ih chunk2 r r' _ _ (n + 1)

theorem matchChunkF_err_indep (fuel : Nat) : ∀ (chunk : Str) (f f' : Bool)
    (s s' : Str),
    (matchChunkF fuel f chunk s = .err) ↔ (matchChunkF fuel f' chunk s' = .err) := by
  induction fuel with
  | zero => intro chunk f f' s s'; simp [matchChunkF]
  | succ fuel ih =>
    intro chunk f f' s s'
    cases chunk with
    | nil => cases f <;> cases f' <;> simp [matchChunkF]
    | cons c chunkRest =>
      by_cases hc1 : c = '['
      · subst hc1
        have hred : ∀ (g : Bool) (t : Str),
            matchChunkF (fuel + 1) g ('[' :: chunkRest) t
              = match classRanges ((classNeg chunkRest).2.length + 1)
                  (classChar (g || t.isEmpty) t).1 (classNeg chunkRest).2 false 0 with
                | .error _ => ChunkRes.err
                | .ok (m, chunk3) =>
                  matchChunkF fuel ((g || t.isEmpty) || (m == (classNeg chunkRest).1))
                    chunk3 (classChar (g || t.isEmpty) t).2 :=
          fun g t => rfl
        rw [hred f s, hred f' s']
        rcases classRanges_shape ((classNeg chunkRest).2.length + 1)
            (classNeg chunkRest).2
            (classChar (f || s.isEmpty) s).1
            (classChar (f' || s'.isEmpty) s').1 false false 0 with
          ⟨h1, h2⟩ | ⟨b, b', c3, h1, h2⟩
        · rw [h1, h2]
        · rw [h1, h2]
          exact ih c3 _ _ _ _
      · by_cases hc2 : c = '?'
        · subst hc2
          have hred : ∀ (g : Bool) (t : Str),
              matchChunkF (fuel + 1) g ('?' :: chunkRest) t
                = if (g || t.isEmpty) = true then
                     matchChunkF fuel (g || t.isEmpty) chunkRest t
                  else match t with
                    | [] => matchChunkF fuel true chunkRest []
                    | x :: xs => matchChunkF fuel (x = '/') chunkRest xs :=
            fun g t => rfl
          rw [hred f s, hred f' s']
          by_cases hf : (f || s.isEmpty) = true <;>
            by_cases hf' : (f' || s'.isEmpty) = true <;>
            first
              | (rw [if_pos hf, if_pos hf']; exact ih chunkRest _ _ _ _)
              | (rw [if_pos hf, if_neg hf']; cases s' <;> exact ih chunkRest _ _ _ _)
              | (rw [if_neg hf, if_pos hf']; cases s <;> exact ih chunkRest _ _ _ _)
              | (rw [if_neg hf, if_neg hf']; cases s <;> cases s' <;>
                  exact ih chunkRest _ _ _ _)
        · by_cases hc3 : c = '\\'
          · subst hc3
            cases chunkRest with
            | nil => exact Iff.rfl
            | cons d r2 =>
              have hred : ∀ (g : Bool) (t : Str),
                  matchChunkF (fuel + 1) g ('\\' :: d :: r2) t
                    = if (g || t.isEmpty) = true then
                        matchChunkF fuel (g || t.isEmpty) r2 t
                      else match t with
                        | [] => matchChunkF fuel true r2 []
                        | x :: xs => matchChunkF fuel (d ≠ x) r2 xs :=
                fun g t => rfl
              rw [hred f s, hred f' s']
              by_cases hf : (f || s.isEmpty) = true <;>
                by_cases hf' : (f' || s'.isEmpty) = true <;>
                first
                  | (rw [if_pos hf, if_pos hf']; exact ih r2 _ _ _ _)
                  | (rw [if_pos hf, if_neg hf']; cases s' <;> exact ih r2 _ _ _ _)
                  | (rw [if_neg hf, if_pos hf']; cases s <;> exact ih r2 _ _ _ _)
                  | (rw [if_neg hf, if_neg hf']; cases s <;> cases s' <;>
                      exact ih r2 _ _ _ _)
          · have hred : ∀ (g : Bool) (t : Str),
                matchChunkF (fuel + 1) g (c :: chunkRest) t
                  = if (g || t.isEmpty) = true then
                      matchChunkF fuel (g || t.isEmpty) chunkRest t
                    else match t with
                      | [] => matchChunkF fuel true chunkRest []
                      | x :: xs => matchChunkF fuel (c ≠ x) chunkRest xs := by
              intro g t
              simp only [matchChunkF]
              rw [if_neg hc1, if_neg hc2, if_neg hc3]
            rw [hred f s, hred f' s']
            by_cases hf : (f || s.isEmpty) = true <;>
              by_cases hf' : (f' || s'.isEmpty) = true <;>
              first
                | (rw [if_pos hf, if_pos hf']; exact ih chunkRest _ _ _ _)
                | (rw [if_pos hf, if_neg hf']; cases s' <;> exact ih chunkRest _ _ _ _)
                | (rw [if_neg hf, if_pos hf']; cases s <;> exact ih chunkRest _ _ _ _)
                | (rw [if_neg hf, if_neg hf']; cases s <;> cases s' <;>
                    exact ih chunkRest _ _ _ _)

theorem matchChunk_err_indep (chunk s s' : Str) :
    (matchChunk chunk s = .err) ↔ (matchChunk chunk s' = .err) :=
  matchChunkF_err_indep _ chunk false false s s'

theorem goMatchF_error_of_invalid : ∀ (fuel : Nat) (p name : Str),
    p.length < fuel → validChunksF fuel p = false →
    goMatchF fuel p name = .error () := by
  intro fuel
  induction fuel with
  | zero => intro p name h hv; omega
  | succ fuel ih =>
    intro p name hlen hval
    cases p with
    | nil => simp [validChunksF] at hval
    | cons c r =>
      have hrest_lt := scanChunk_rest_lt (c :: r) (by simp)
      have hlen2 : (c :: r).length ≤ fuel := by omega
      simp only [validChunksF] at hval
      simp only [goMatchF]
      by_cases hstar : ((scanChunk (c :: r)).1 = true ∧ (scanChunk (c :: r)).2.1 = [])
      · have hrest := scanChunk_chunk_nil (c :: r) hstar.2
        rw [hstar.2, hrest] at hval
        have hv2 : validChunksF fuel [] = false := hval
        cases fuel with
        | zero => simp at hlen2
        | succ fuel2 => simp [validChunksF] at hv2
      · rw [if_neg hstar]
        cases hmc0 : matchChunk (scanChunk (c :: r)).2.1 [] with
        | err =>
          have herr : matchChunk (scanChunk (c :: r)).2.1 name = .err :=
            (matchChunk_err_indep _ [] name).mp hmc0
          rw [herr]
        | miss =>
          rw [hmc0] at hval
          have hval2 : validChunksF fuel (scanChunk (c :: r)).2.2 = false := hval
          cases hmc : matchChunk (scanChunk (c :: r)).2.1 name with
          | err => rfl
          | rest t =>
            simp only []
            by_cases hacc : (t = [] ∨ (scanChunk (c :: r)).2.2 ≠ [])
            · rw [if_pos hacc]
              exact ih _ _ (by omega) hval2
            · rw [if_neg hacc]
              cases hsl : (if (scanChunk (c :: r)).1 then
                  starLoop (scanChunk (c :: r)).2.1 (scanChunk (c :: r)).2.2 name
                else StarRes.miss) with
              | err => rfl
              | continueWith t2 => exact ih _ _ (by omega) hval2
              | miss =>
                rw [validChunksF_mono ((scanChunk (c :: r)).2.2.length + 1) fuel _
                  (by omega) (by omega), hval2]
                rfl
          | miss =>
            cases hsl : (if (scanChunk (c :: r)).1 then
                starLoop (scanChunk (c :: r)).2.1 (scanChunk (c :: r)).2.2 name
              else StarRes.miss) with
            | err => rfl
            | continueWith t2 => exact ih _ _ (by omega) hval2
            | miss =>
              rw [validChunksF_mono ((scanChunk (c :: r)).2.2.length + 1) fuel _
                (by omega) (by omega), hval2]
              rfl
        | rest t0 =>
          rw [hmc0] at hval
          have hval2 : validChunksF fuel (scanChunk (c :: r)).2.2 = false := hval
          cases hmc : matchChunk (scanChunk (c :: r)).2.1 name with
          | err => rfl
          | rest t =>
            simp only []
            by_cases hacc : (t = [] ∨ (scanChunk (c :: r)).2.2 ≠ [])
            · rw [if_pos hacc]
              exact ih _ _ (by omega) hval2
            · rw [if_neg hacc]
              cases hsl : (if (scanChunk (c :: r)).1 then
                  starLoop (scanChunk (c :: r)).2.1 (scanChunk (c :: r)).2.2 name
                else StarRes.miss) with
              | err => rfl
              | continueWith t2 => exact ih _ _ (by omega) hval2
              | miss =>
                rw [validChunksF_mono ((scanChunk (c :: r)).2.2.length + 1) fuel _
                  (by omega) (by omega), hval2]
                rfl
          | miss =>
            cases hsl : (if (scanChunk (c :: r)).1 then
                starLoop (scanChunk (c :: r)).2.1 (scanChunk (c :: r)).2.2 name
              else StarRes.miss) with
            | err => rfl
            | continueWith t2 => exact ih _ _ (by omega) hval2
            | miss =>
              rw [validChunksF_mono ((scanChunk (c :: r)).2.2.length + 1) fuel _
                (by omega) (by omega), hval2]
              rfl

/-! ## shouldSkip (lines 1444-1461) and createZipFile (lines 1357-1442)

A project tree is modeled as a forest of named entries in the order
filepath.Walk visits them (lexical order of names).  The walk callback
skips the root, prunes a skipped directory with filepath.SkipDir, skips a
skipped file, and records each remaining file's archive entry name
`slug + "/" + ToSlash(relPath)`; paths here already use `/`. -/

/-- filepath.Base as used on the walk's relative paths: strip trailing
separators, then keep everything after the last separator; `"."` for an
empty path and `"/"` for an all-separator path. -/
def goBase (path : Str) : Str :=
  if path = [] then ['.']
  else
    let trimmed := (path.reverse.dropWhile (fun c => c = '/')).reverse
    if trimmed = [] then ['/']
    else (splitOn '/' trimmed).getLastD []

def shouldSkip (path : Str) (patterns : List Str) : Bool :=
  patterns.any fun pattern =>
    matchOk pattern (goBase path) ||
      (splitOn '/' path).any fun part => matchOk pattern part

/-- Sibling-ordered forest: `file name rest` and `dir name children rest`
list entries in the walk's visiting order. -/
inductive FsForest where
  | nil : FsForest
  | file (name : Str) (rest : FsForest) : FsForest
  | dir (name : Str) (children : FsForest) (rest : FsForest) : FsForest
deriving DecidableEq

/-- Relative path of an entry under `rel` (filepath.Join with `/`). -/
def joinPath (rel name : Str) : Str :=
  if rel = [] then name else rel ++ '/' :: name

/-- The walk of createZipFile: the archive entry names produced below a
directory whose relative path is `rel`, in order. -/
def walkForest (patterns : List Str) (slug : Str) (rel : Str) :
    FsForest → List Str
  | .nil => []
  | .file name rest =>
    (if shouldSkip (joinPath rel name) patterns then []
     else [slug ++ '/' :: joinPath rel name]) ++ walkForest patterns slug rel rest
  | .dir name children rest =>
    (if shouldSkip (joinPath rel name) patterns then []
     else walkForest patterns slug (joinPath rel name) children)
      ++ walkForest patterns slug rel rest

/-- The built-in exclusions of createZipFile (lines 1368-1377). -/
def defaultSkipPatterns : List Str :=
  ["Updates".data, "update.config".data, "update.log".data,
   "*.code-workspace".data, "*.bak".data, "composer.lock".data,
   "Thumbs.db".data]

/-- createZipFile as the list of archive entry names it writes: the walk
from the project root with built-in plus caller-supplied patterns. -/
def createZipFile (tree : FsForest) (skipPatterns : List Str) (slug : Str) :
    List Str :=
  walkForest (defaultSkipPatterns ++ skipPatterns) slug [] tree

/-- All file paths of the tree (walk order, no exclusions). -/
def forestFiles (rel : Str) : FsForest → List Str
  | .nil => []
  | .file name rest => joinPath rel name :: forestFiles rel rest
  | .dir name children rest =>
    forestFiles (joinPath rel name) children ++ forestFiles rel rest

/-- Entry names are nonempty and contain no separator (true of any real
directory tree). -/
def nameOK (name : Str) : Bool := !name.isEmpty && !(name.contains '/')

def forestWF : FsForest → Bool
  | .nil => true
  | .file name rest => nameOK name && forestWF rest
  | .dir name children rest => nameOK name && forestWF children && forestWF rest

/-! ## Claim C5: archive membership -/

theorem splitOn_append (a b : Str) :
    splitOn '/' (a ++ '/' :: b) = splitOn '/' a ++ splitOn '/' b := by
  induction a with
  | nil => simp [splitOn]
  | cons c r ih =>
    by_cases hc : c = '/'
    · simp [splitOn, hc, ih]
    · have hne := splitOn_ne_nil '/' r
      cases hr : splitOn '/' r with
      | nil => exact absurd hr hne
      | cons x xs =>
        simp only [List.cons_append, splitOn, if_neg hc, List.append_eq]
        rw [ih, hr]
        simp

theorem splitOn_no_sep (s : Str) (h : s.contains '/' = false) :
    splitOn '/' s = [s] := by
  induction s with
  | nil => rfl
  | cons c r ih =>
    simp only [List.contains_cons, Bool.or_eq_false_iff] at h
    have hc : ¬(c = '/') := by
      intro hcc
      subst hcc
      simp at h
    rw [splitOn, ih h.2]
    simp [hc]

theorem reverse_dropWhile_eq (q : Str) (h : q.getLast? ≠ some '/') :
    (q.reverse.dropWhile (fun c => c = '/')).reverse = q := by
  cases hr : q.reverse with
  | nil => simpa using congrArg List.reverse hr
  | cons x xs =>
    have hx0 : q.getLast? = some x := by
      rw [← List.head?_reverse, hr]; rfl
    have hx : ¬(x = '/') := fun he => h (by rw [hx0, he])
    rw [List.dropWhile_cons, if_neg (by simpa using hx), ← hr,
      List.reverse_reverse]

theorem nameOK_iff (name : Str) (h : nameOK name = true) :
    name ≠ [] ∧ name.contains '/' = false := by
  unfold nameOK at h
  simp only [Bool.and_eq_true, Bool.not_eq_true'] at h
  exact ⟨by simpa using h.1, h.2⟩

theorem goBase_join (rel name : Str) (h1 : name ≠ [])
    (h2 : name.contains '/' = false) :
    goBase (joinPath rel name) = name := by
  have hnmem : ¬('/' ∈ name) := by simpa using h2
  have hlastname : name.getLast? ≠ some '/' := fun hl =>
    hnmem (List.mem_of_mem_getLast? (by rw [hl]; rfl))
  by_cases hrel : rel = []
  · subst hrel
    have hj : joinPath [] name = name := by simp [joinPath]
    rw [hj, goBase, if_neg h1]
    simp only [reverse_dropWhile_eq name hlastname, if_neg h1,
      splitOn_no_sep name h2]
    rfl
  · have hj : joinPath rel name = rel ++ '/' :: name := by simp [joinPath, hrel]
    have hne : rel ++ '/' :: name ≠ [] := by simp
    have hlast : (rel ++ '/' :: name).getLast? = name.getLast? := by
      rw [List.getLast?_append_of_ne_nil rel (by simp)]
      rw [show ('/' :: name) = ['/'] ++ name from rfl,
        List.getLast?_append_of_ne_nil ['/'] h1]
    have htrim := reverse_dropWhile_eq (rel ++ '/' :: name) (by rw [hlast]; exact hlastname)
    rw [hj, goBase, if_neg hne]
    simp only [htrim, if_neg hne, splitOn_append, splitOn_no_sep name h2]
    exact List.getLastD_concat [] name (splitOn '/' rel)

theorem splitOn_join (rel name : Str) (h2 : name.contains '/' = false) :
    splitOn '/' (joinPath rel name)
      = (if rel = [] then [] else splitOn '/' rel) ++ [name] := by
  by_cases hrel : rel = []
  · simp [joinPath, hrel, splitOn_no_sep name h2]
  · simp [joinPath, hrel, splitOn_append, splitOn_no_sep name h2]

theorem goBase_join_mem (rel name : Str) (h1 : name ≠ [])
    (h2 : name.contains '/' = false) :
    goBase (joinPath rel name) ∈ splitOn '/' (joinPath rel name) := by
  rw [goBase_join rel name h1 h2, splitOn_join rel name h2]
  exact List.mem_append_right _ (by simp)

theorem forestFiles_ext (f : FsForest) : ∀ (rel q : Str), rel ≠ [] →
    q ∈ forestFiles rel f → ∃ m, q = rel ++ '/' :: m := by
  induction f with
  | nil => intro rel q hrel hq; simp [forestFiles] at hq
  | file name rest ih =>
    intro rel q hrel hq
    rcases List.mem_cons.mp hq with rfl | hq2
    · exact ⟨name, by simp [joinPath, hrel]⟩
    · exact ih rel q hrel hq2
  | dir name children rest ihc ihr =>
    intro rel q hrel hq
    rcases List.mem_append.mp hq with hq2 | hq2
    · have hj : joinPath rel name = rel ++ '/' :: name := by simp [joinPath, hrel]
      obtain ⟨m, hm⟩ := ihc (joinPath rel name) q (by simp [hj]) hq2
      exact ⟨name ++ '/' :: m, by simp [hm, hj]⟩
    · exact ihr rel q hrel hq2

theorem shouldSkip_ext (path m : Str) (pats : List Str)
    (hbase : goBase path ∈ splitOn '/' path)
    (h : shouldSkip path pats = true) :
    shouldSkip (path ++ '/' :: m) pats = true := by
  unfold shouldSkip at h ⊢
  rw [List.any_eq_true] at h ⊢
  obtain ⟨pattern, hp, hmatch⟩ := h
  refine ⟨pattern, hp, ?_⟩
  rw [Bool.or_eq_true] at hmatch ⊢
  right
  rw [List.any_eq_true, splitOn_append]
  rcases hmatch with hb | hseg
  · exact ⟨goBase path, List.mem_append_left _ hbase, hb⟩
  · rw [List.any_eq_true] at hseg
    obtain ⟨seg, hsm, hm2⟩ := hseg
    exact ⟨seg, List.mem_append_left _ hsm, hm2⟩

theorem shouldSkip_of_seg (q : Str) (pats : List Str) (pattern seg : Str)
    (hp : pattern ∈ pats) (hseg : seg ∈ splitOn '/' q)
    (hm : matchOk pattern seg = true) : shouldSkip q pats = true := by
  unfold shouldSkip
  rw [List.any_eq_true]
  refine ⟨pattern, hp, ?_⟩
  rw [Bool.or_eq_true]
  right
  rw [List.any_eq_true]
  exact ⟨seg, hseg, hm⟩

theorem walkForest_mem (pats : List Str) (slug : Str) (f : FsForest) :
    ∀ (rel : Str), forestWF f = true → ∀ p,
      (p ∈ walkForest pats slug rel f ↔
        ∃ q, q ∈ forestFiles rel f ∧ p = slug ++ '/' :: q ∧
          shouldSkip q pats = false) := by
  induction f with
  | nil => intro rel hwf p; simp [walkForest, forestFiles]
  | file name rest ih =>
    intro rel hwf p
    simp only [forestWF, Bool.and_eq_true] at hwf
    simp only [walkForest, forestFiles, List.mem_append]
    by_cases hs : shouldSkip (joinPath rel name) pats = true
    · rw [if_pos hs]
      simp only [List.not_mem_nil, false_or]
      rw [ih rel hwf.2 p]
      constructor
      · rintro ⟨q, hq, hpq, hsk⟩
        exact ⟨q, List.mem_cons_of_mem _ hq, hpq, hsk⟩
      · rintro ⟨q, hq, hpq, hsk⟩
        rcases List.mem_cons.mp hq with rfl | hq2
        · rw [hs] at hsk; exact absurd hsk (by simp)
        · exact ⟨q, hq2, hpq, hsk⟩
    · rw [if_neg hs]
      have hs' : shouldSkip (joinPath rel name) pats = false := by
        simpa using hs
      simp only [List.singleton_append, List.mem_cons]
      rw [ih rel hwf.2 p]
      constructor
      · rintro ((rfl | h0) | ⟨q, hq, hpq, hsk⟩)
        · exact ⟨joinPath rel name, Or.inl rfl, rfl, hs'⟩
        · exact absurd h0 (List.not_mem_nil p)
        · exact ⟨q, Or.inr hq, hpq, hsk⟩
      · rintro ⟨q, rfl | hq2, hpq, hsk⟩
        · exact Or.inl (Or.inl hpq)
        · exact Or.inr ⟨q, hq2, hpq, hsk⟩
  | dir name children rest ihc ihr =>
    intro rel hwf p
    simp only [forestWF, Bool.and_eq_true] at hwf
    have hn := hwf.1.1
    have hwfc := hwf.1.2
    have hwfr := hwf.2
    obtain ⟨hn1, hn2⟩ := nameOK_iff name hn
    simp only [walkForest, forestFiles, List.mem_append]
    by_cases hs : shouldSkip (joinPath rel name) pats = true
    · rw [if_pos hs]
      simp only [List.not_mem_nil, false_or]
      rw [ihr rel hwfr p]
      constructor
      · rintro ⟨q, hq, hpq, hsk⟩
        exact ⟨q, Or.inr hq, hpq, hsk⟩
      · rintro ⟨q, hq | hq, hpq, hsk⟩
        · obtain ⟨m, rfl⟩ := forestFiles_ext children (joinPath rel name) q
            (by by_cases hrel : rel = [] <;> simp [joinPath, hrel, hn1]) hq
          have := shouldSkip_ext (joinPath rel name) m pats
            (goBase_join_mem rel name hn1 hn2) hs
          rw [this] at hsk
          exact absurd hsk (by simp)
        · exact ⟨q, hq, hpq, hsk⟩
    · rw [if_neg hs]
      rw [ihc (joinPath rel name) hwfc p, ihr rel hwfr p]
      constructor
      · rintro (⟨q, hq, hpq, hsk⟩ | ⟨q, hq, hpq, hsk⟩)
        · exact ⟨q, Or.inl hq, hpq, hsk⟩
        · exact ⟨q, Or.inr hq, hpq, hsk⟩
      · rintro ⟨q, hq | hq, hpq, hsk⟩
        · exact Or.inl ⟨q, hq, hpq, hsk⟩
        · exact Or.inr ⟨q, hq, hpq, hsk⟩

/-- C5: an entry appears in the produced archive exactly when it is a file
of the tree none of whose path segments (equivalently, neither its basename
nor any segment of its root-relative path — that is shouldSkip) matches any
glob of the built-in-plus-caller exclusion set; consequently a directory
`Updates` and a file `Thumbs.db` at any depth never appear, and with the
extra pattern `*.log` no `b.log` appears.  A matching directory prunes the
subtree and a matching file skips that file (walkForest's two branches). -/
theorem C5_theorem (tree : FsForest) (pats : List Str) (slug : Str)
    (hwf : forestWF tree = true) :
    (∀ p, p ∈ createZipFile tree pats slug ↔
      ∃ q, q ∈ forestFiles [] tree ∧ p = slug ++ '/' :: q ∧
        shouldSkip q (defaultSkipPatterns ++ pats) = false) ∧
    (∀ q, q ∈ forestFiles [] tree → ("Updates".data) ∈ splitOn '/' q →
      slug ++ '/' :: q ∉ createZipFile tree pats slug) ∧
    (∀ q, q ∈ forestFiles [] tree → ("Thumbs.db".data) ∈ splitOn '/' q →
      slug ++ '/' :: q ∉ createZipFile tree pats slug) ∧
    (("*.log".data) ∈ pats → ∀ q, q ∈ forestFiles [] tree →
      ("b.log".data) ∈ splitOn '/' q →
      slug ++ '/' :: q ∉ createZipFile tree pats slug) := by
  have hmain : ∀ p, p ∈ createZipFile tree pats slug ↔
      ∃ q, q ∈ forestFiles [] tree ∧ p = slug ++ '/' :: q ∧
        shouldSkip q (defaultSkipPatterns ++ pats) = false :=
    fun p => walkForest_mem (defaultSkipPatterns ++ pats) slug tree [] hwf p
  have hkill : ∀ (q pattern seg : Str), pattern ∈ defaultSkipPatterns ++ pats →
      seg ∈ splitOn '/' q → matchOk pattern seg = true →
      slug ++ '/' :: q ∉ createZipFile tree pats slug := by
    intro q pattern seg hp hseg hm hin
    obtain ⟨q2, hq2, heq, hsk⟩ := (hmain _).mp hin
    obtain rfl : q = q2 := by
      have h2 := List.append_cancel_left heq
      exact (List.cons.injEq _ _ _ _ ▸ h2).2
    rw [shouldSkip_of_seg q _ pattern seg hp hseg hm] at hsk
    exact absurd hsk (by simp)
  refine ⟨hmain, ?_, ?_, ?_⟩
  · intro q hq hseg
    exact hkill q ("Updates".data) ("Updates".data)
      (List.mem_append_left _ (by decide)) hseg (by decide)
  · intro q hq hseg
    exact hkill q ("Thumbs.db".data) ("Thumbs.db".data)
      (List.mem_append_left _ (by decide)) hseg (by decide)
  · intro hlog q hq hseg
    exact hkill q ("*.log".data) ("b.log".data)
      (List.mem_append_right _ hlog) hseg (by decide)

/-- The tree of the repository's own zip test: a.txt, b.log, Updates/
ignored.txt, nested/Thumbs.db. -/
def demoTree : FsForest :=
  .file ("a.txt".data)
    (.file ("b.log".data)
      (.dir ("Updates".data) (.file ("ignored.txt".data) .nil)
        (.dir ("nested".data) (.file ("Thumbs.db".data) .nil) .nil)))

/-- C5 witness: on the concrete tree with skip pattern `*.log`, a.txt is
archived and b.log, Updates/ignored.txt, nested/Thumbs.db are not. -/
theorem C5_witness :
    ("slug/a.txt".data ∈ createZipFile demoTree ["*.log".data] ("slug".data)) ∧
    ("slug/b.log".data ∉ createZipFile demoTree ["*.log".data] ("slug".data)) ∧
    ("slug/Updates/ignored.txt".data
      ∉ createZipFile demoTree ["*.log".data] ("slug".data)) ∧
    ("slug/nested/Thumbs.db".data
      ∉ createZipFile demoTree ["*.log".data] ("slug".data)) := by
  have h := C5_theorem demoTree ["*.log".data] ("slug".data) (by decide)
  refine ⟨?_, ?_, ?_, ?_⟩
  · exact (h.1 _).mpr ⟨"a.txt".data, by decide, by decide, by decide⟩
  · exact h.2.2.2 (by decide) ("b.log".data) (by decide) (by decide)
  · exact h.2.1 ("Updates/ignored.txt".data) (by decide) (by decide)
  · exact h.2.2.1 ("nested/Thumbs.db".data) (by decide) (by decide)

/-! ## Claim C10: syntactically invalid exclusion patterns -/

theorem matchOk_invalid (p : Str) (hbad : patternValid p = false)
    (name : Str) : matchOk p name = false := by
  unfold matchOk goMatch
  rw [goMatchF_error_of_invalid (p.length + 1) p name (by omega) hbad]

theorem shouldSkip_erase_bad (p : Str) (hbad : patternValid p = false)
    (path : Str) (pats1 pats2 : List Str) :
    shouldSkip path (pats1 ++ p :: pats2) = shouldSkip path (pats1 ++ pats2) := by
  unfold shouldSkip
  rw [List.any_append, List.any_cons, List.any_append]
  have h1 : matchOk p (goBase path) = false := matchOk_invalid p hbad _
  have h2 : (splitOn '/' path).any (fun part => matchOk p part) = false := by
    rw [List.any_eq_false]
    intro seg hseg
    simp [matchOk_invalid p hbad]
  rw [h1, h2]
  simp

theorem walkForest_congr (pats pats' : List Str) (slug : Str)
    (h : ∀ path, shouldSkip path pats = shouldSkip path pats') (f : FsForest) :
    ∀ rel, walkForest pats slug rel f = walkForest pats' slug rel f := by
  induction f with
  | nil => intro rel; rfl
  | file name rest ih => intro rel; simp only [walkForest, h, ih]
  | dir name children rest ihc ihr =>
    intro rel; simp only [walkForest, h, ihc, ihr]

/-- C10: an exclusion pattern on which the glob matcher reports a
bad-pattern error matches nothing in shouldSkip — it never excludes an
entry, never propagates a failure (shouldSkip and the walk stay total),
and archive creation behaves exactly as if the pattern were absent. -/
theorem C10_theorem (p : Str) (hbad : patternValid p = false) :
    (∀ name, matchOk p name = false) ∧
    (∀ path pats1 pats2,
      shouldSkip path (pats1 ++ p :: pats2) = shouldSkip path (pats1 ++ pats2)) ∧
    (∀ tree pats1 pats2 slug,
      createZipFile tree (pats1 ++ p :: pats2) slug
        = createZipFile tree (pats1 ++ pats2) slug) := by
  refine ⟨matchOk_invalid p hbad, shouldSkip_erase_bad p hbad, ?_⟩
  intro tree pats1 pats2 slug
  unfold createZipFile
  rw [show defaultSkipPatterns ++ (pats1 ++ p :: pats2)
      = (defaultSkipPatterns ++ pats1) ++ p :: pats2 from by
    rw [List.append_assoc]]
  rw [show defaultSkipPatterns ++ (pats1 ++ pats2)
      = (defaultSkipPatterns ++ pats1) ++ pats2 from by rw [List.append_assoc]]
  exact walkForest_congr _ _ slug
    (fun path =>
      shouldSkip_erase_bad p hbad path (defaultSkipPatterns ++ pats1) pats2)
    tree []

/-- C10 witness: the malformed pattern `[` is rejected by the matcher, and
adding it changes neither shouldSkip nor the produced archive. -/
theorem C10_witness :
    patternValid ("[".data) = false ∧
    shouldSkip ("b.log".data) (["[".data, "*.log".data])
      = shouldSkip ("b.log".data) (["*.log".data]) ∧
    createZipFile demoTree (["[".data, "*.log".data]) ("slug".data)
      = createZipFile demoTree (["*.log".data]) ("slug".data) := by
  have h := C10_theorem ("[".data) (by decide)
  exact ⟨by decide, h.2.1 ("b.log".data) [] ["*.log".data],
    h.2.2 demoTree [] ["*.log".data] ("slug".data)⟩

/-! ## Claim C6: archive name and entry prefix (main, lines 994-1007)

The archive file name is derived from the download URL: take its basename,
strip a trailing `-v?[0-9.]*\.zip` (regexp, leftmost match — modeled as
the least split position whose suffix matches), use the result as the slug
when the descriptor's slug is empty, and name the file
`<base>-v<version>.zip`. -/

/-- Whether a string is `[0-9.]*` followed by exactly `.zip` — the part of
the version-suffix regex after the optional `v`. -/
def vzipBody : Str → Bool
  | [] => false
  | c :: r =>
    (c :: r = ".zip".data) || ((c.isDigit || c = '.') && vzipBody r)

/-- Whether a whole string matches `-v?[0-9.]*\.zip`. -/
def tailMatchesVZip : Str → Bool
  | '-' :: r =>
    vzipBody r ||
      (match r with
       | 'v' :: r2 => vzipBody r2
       | _ => false)
  | _ => false

/-- `re.MatchString` for the end-anchored version-suffix regex. -/
def matchVZip : Str → Bool
  | [] => false
  | c :: r => tailMatchesVZip (c :: r) || matchVZip r

/-- `re.ReplaceAllString(name, "")`: delete the leftmost (and only
possible) end-anchored match. -/
def replaceVZip : Str → Str
  | [] => []
  | c :: r => if tailMatchesVZip (c :: r) then [] else c :: replaceVZip r

/-- strings.TrimSuffix. -/
def trimSuffix (s suf : Str) : Str :=
  if suf.isSuffixOf s then s.take (s.length - suf.length) else s

/-- The naming fragment of main: returns (zip file name, slug). -/
def computeZipNaming (downloadURL slugIn currentVersion : Str) : Str × Str :=
  let remoteZIPName := goBase downloadURL
  let remoteZIPName2 := replaceVZip remoteZIPName
  let slug := if slugIn = [] then remoteZIPName2 else slugIn
  let remoteZIPName3 :=
    if matchVZip remoteZIPName2 then trimSuffix remoteZIPName2 (".zip".data)
    else remoteZIPName2
  (remoteZIPName3 ++ "-v".data ++ currentVersion ++ ".zip".data, slug)

/-- Every archive entry the walk produces is prefixed `slug/`. -/
theorem walkForest_shape (pats : List Str) (slug : Str) (f : FsForest) :
    ∀ rel p, p ∈ walkForest pats slug rel f → ∃ q, p = slug ++ '/' :: q := by
  induction f with
  | nil => intro rel p h; simp [walkForest] at h
  | file name rest ih =>
    intro rel p h
    rcases List.mem_append.mp h with h1 | h1
    · by_cases hs : shouldSkip (joinPath rel name) pats = true
      · rw [if_pos hs] at h1; simp at h1
      · rw [if_neg hs] at h1
        exact ⟨joinPath rel name, List.mem_singleton.mp h1⟩
    · exact ih rel p h1
  | dir name children rest ihc ihr =>
    intro rel p h
    rcases List.mem_append.mp h with h1 | h1
    · by_cases hs : shouldSkip (joinPath rel name) pats = true
      · rw [if_pos hs] at h1; simp at h1
      · rw [if_neg hs] at h1
        exact ihc (joinPath rel name) p h1
    · exact ihr rel p h1

/-- C6 (counterexample): when the descriptor already carries a slug that
differs from the URL-derived base name, the archive file is *not* named
`<slug>-v<version>.zip`: with download URL basename `foo-v1.0.zip` and
slug `bar`, the file is `foo-v1.2.0.zip` while entries are prefixed
`bar/`. -/
theorem C6_counterexample :
    computeZipNaming ("https://example.com/u/foo-v1.0.zip".data)
        ("bar".data) ("1.2.0".data)
      = ("foo-v1.2.0.zip".data, "bar".data) ∧
    "foo-v1.2.0.zip".data
      ≠ "bar".data ++ "-v".data ++ "1.2.0".data ++ ".zip".data := by
  constructor
  · decide
  · decide

/-- C6 (amended): the archive file is named `<base>-v<version>.zip` where
base is the download URL's basename with any `-v<digits/dots>.zip` suffix
stripped; when the descriptor slug is empty the slug is set to exactly
that base, so the file is `<slug>-v<version>.zip`; and every entry path
inside the archive is prefixed `<slug>/` with forward slashes. -/
theorem C6_amended (url version : Str)
    (hnm : matchVZip (replaceVZip (goBase url)) = false) :
    (computeZipNaming url [] version
      = (replaceVZip (goBase url) ++ "-v".data ++ version ++ ".zip".data,
         replaceVZip (goBase url))) ∧
    (∀ tree pats p, p ∈ createZipFile tree pats (replaceVZip (goBase url)) →
      ∃ q, p = replaceVZip (goBase url) ++ '/' :: q) := by
  constructor
  · unfold computeZipNaming
    simp only []
    rw [hnm]
    simp
  · intro tree pats p hp
    exact walkForest_shape (defaultSkipPatterns ++ pats)
      (replaceVZip (goBase url)) tree [] p hp

/-- C6 witness: with an empty descriptor slug and download URL basename
`foo-v1.0.zip`, the archive is `foo-v1.2.0.zip` with slug `foo`, and a
produced entry is prefixed `foo/`. -/
theorem C6_witness :
    computeZipNaming ("https://example.com/u/foo-v1.0.zip".data) []
        ("1.2.0".data)
      = ("foo-v1.2.0.zip".data, "foo".data) ∧
    (∃ q, "foo/a.txt".data = "foo".data ++ '/' :: q) := by
  have h := C6_amended ("https://example.com/u/foo-v1.0.zip".data)
    ("1.2.0".data) (by decide)
  constructor
  · exact h.1.trans (by decide)
  · exact h.2 demoTree [] ("foo/a.txt".data) (by decide)

/-- Scan for the first "://" separator, as net/url does when a scheme is
present; returns what follows it. -/
def afterSchemeSep : Str → Option Str
  | [] => none
  | ':' :: '/' :: '/' :: r => some r
  | _ :: r => afterSchemeSep r

/-- The path component of a URL as url.Parse yields it for the URLs this
program handles: after "scheme://", drop the host (up to the first slash)
and stop at a query or fragment; without a scheme separator the whole
string up to a query or fragment is the path. -/
def urlPath (u : Str) : Str :=
  match afterSchemeSep u with
  | some rest =>
    (rest.dropWhile (fun c => c ≠ '/')).takeWhile (fun c => c ≠ '?' ∧ c ≠ '#')
  | none => u.takeWhile (fun c => c ≠ '?' ∧ c ≠ '#')

inductive RemotePathErr where
  | urlEndsDirectory : RemotePathErr
  | urlHasNoFilename : RemotePathErr
deriving DecidableEq

def lastIndexOf (c : Char) : Str → Option Nat
  | [] => none
  | x :: r =>
    match lastIndexOf c r with
    | some i => some (i + 1)
    | none => if x = c then some 0 else none

/-- Go parseRemotePath (lines 1590-1610): normalize the URL path to start
with a slash, reject a path ending in a slash, cut at the last slash and
prefix the base directory with its trailing slash stripped. -/
def parseRemotePath (downloadURL basedir : Str) : Except RemotePathErr Str :=
  let path0 := urlPath downloadURL
  let path := if path0.take 1 = "/".data then path0 else '/' :: path0
  if path.getLastD ' ' = '/' then .error .urlEndsDirectory
  else
    match lastIndexOf '/' path with
    | none => .error .urlHasNoFilename
    | some pos => .ok (trimSuffix basedir ("/".data) ++ path.take pos)

theorem lastIndexOf_none (c : Char) (s : Str) :
    lastIndexOf c s = none ↔ ¬(c ∈ s) := by
  induction s with
  | nil => simp [lastIndexOf]
  | cons x r ih =>
    simp only [lastIndexOf]
    cases hr : lastIndexOf c r with
    | some i =>
      simp only []
      constructor
      · intro h; exact absurd h (by simp)
      · intro h
        rw [hr] at ih
        have : c ∈ r := by
          by_contra hc
          simp [hc] at ih
        exact absurd (List.mem_cons_of_mem x this) h
    | none =>
      rw [hr] at ih
      have hcr : ¬(c ∈ r) := ih.mp rfl
      by_cases hx : x = c
      · subst hx
        simp
      · simp only [if_neg hx]
        constructor
        · intro _
          simp only [List.mem_cons, not_or]
          exact ⟨fun h => hx h.symm, hcr⟩
        · intro _; trivial

theorem lastIndexOf_mem (c : Char) (s : Str) (h : c ∈ s) :
    ∃ i, lastIndexOf c s = some i := by
  cases hl : lastIndexOf c s with
  | none => exact absurd ((lastIndexOf_none c s).mp hl) (by simp [h])
  | some i => exact ⟨i, rfl⟩

theorem getLastD_of_ne_nil (l : Str) (h : l ≠ []) (d d2 : Char) :
    l.getLastD d = l.getLastD d2 := by
  cases l with
  | nil => exact absurd rfl h
  | cons x r =>
    cases hgl : (x :: r).getLast? with
    | none => rw [List.getLast?_eq_none_iff] at hgl; simp at hgl
    | some y => simp [List.getLastD_eq_getLast?, hgl]

/-- The normalized path always contains a slash. -/
theorem normPath_mem (p0 : Str) :
    '/' ∈ (if p0.take 1 = "/".data then p0 else '/' :: p0) := by
  cases p0 with
  | nil => rw [if_neg (by decide)]; exact List.mem_cons_self _ _
  | cons c r =>
    by_cases ht : (c :: r).take 1 = "/".data
    · rw [if_pos ht]
      have h1 : ([c] : Str) = ['/'] := by
        calc ([c] : Str) = (c :: r).take 1 := rfl
          _ = "/".data := ht
          _ = ['/'] := rfl
      have hc : c = '/' := (List.cons_eq_cons.mp h1).1
      subst hc
      exact List.mem_cons_self _ _
    · rw [if_neg ht]; exact List.mem_cons_self _ _

/-- The normalized path ends in a slash iff the raw path is empty or ends
in a slash. -/
theorem normPath_lastD (p0 : Str) :
    ((if p0.take 1 = "/".data then p0 else '/' :: p0).getLastD ' ' = '/')
      ↔ (p0 = [] ∨ p0.getLastD ' ' = '/') := by
  cases p0 with
  | nil =>
    rw [if_neg (by decide)]
    decide
  | cons c r =>
    have hne : (c :: r) ≠ ([] : Str) := by simp
    by_cases ht : (c :: r).take 1 = "/".data
    · rw [if_pos ht]
      simp
    · rw [if_neg ht]
      rw [List.getLastD_cons]
      rw [getLastD_of_ne_nil (c :: r) hne '/' ' ']
      simp

/-- C7 (amended): parseRemotePath fails with the directory-URL error
exactly when the URL's path component is empty or ends in a separator; the
no-filename error is unreachable (the path is normalized to start with a
slash, so a last slash always exists); otherwise it returns the base
directory with any trailing separator stripped, concatenated with the
normalized path cut at its last slash — i.e. minus the final filename
segment. -/
theorem C7_amended (u b : Str) :
    (parseRemotePath u b = .error .urlEndsDirectory ↔
      (urlPath u = [] ∨ (urlPath u).getLastD ' ' = '/')) ∧
    parseRemotePath u b ≠ .error .urlHasNoFilename ∧
    (urlPath u ≠ [] → (urlPath u).getLastD ' ' ≠ '/' →
      ∃ pos,
        lastIndexOf '/'
          (if (urlPath u).take 1 = "/".data then urlPath u else '/' :: urlPath u)
          = some pos ∧
        parseRemotePath u b
          = .ok (trimSuffix b ("/".data) ++
              (if (urlPath u).take 1 = "/".data then urlPath u
               else '/' :: urlPath u).take pos)) := by
  have hP : parseRemotePath u b =
      (if (if (urlPath u).take 1 = "/".data then urlPath u
            else '/' :: urlPath u).getLastD ' ' = '/'
       then Except.error RemotePathErr.urlEndsDirectory
       else
         match lastIndexOf '/'
             (if (urlPath u).take 1 = "/".data then urlPath u
              else '/' :: urlPath u) with
         | none => Except.error RemotePathErr.urlHasNoFilename
         | some pos =>
             Except.ok (trimSuffix b ("/".data) ++
               (if (urlPath u).take 1 = "/".data then urlPath u
                else '/' :: urlPath u).take pos)) := rfl
  by_cases hd : (if (urlPath u).take 1 = "/".data then urlPath u
      else '/' :: urlPath u).getLastD ' ' = '/'
  · have herr : parseRemotePath u b = Except.error RemotePathErr.urlEndsDirectory := by
      rw [hP, if_pos hd]
    refine ⟨⟨fun _ => (normPath_lastD (urlPath u)).mp hd, fun _ => herr⟩, ?_, ?_⟩
    · rw [herr]; simp
    · intro h1 h2
      rcases (normPath_lastD (urlPath u)).mp hd with h | h
      · exact absurd h h1
      · exact absurd h h2
  · obtain ⟨pos, hpos⟩ := lastIndexOf_mem '/' _ (normPath_mem (urlPath u))
    have hok : parseRemotePath u b =
        Except.ok (trimSuffix b ("/".data) ++
          (if (urlPath u).take 1 = "/".data then urlPath u
           else '/' :: urlPath u).take pos) := by
      rw [hP, if_neg hd, hpos]
    refine ⟨⟨fun h => ?_, fun hc => absurd ((normPath_lastD (urlPath u)).mpr hc) hd⟩, ?_, ?_⟩
    · rw [hok] at h; exact absurd h (by simp)
    · rw [hok]; simp
    · intro _ _; exact ⟨pos, hpos, hok⟩

/-- C7 (counterexample): the claim says the no-filename error is returned
exactly when the path contains no filename segment.  For
`https://example.com` the path component is empty — it has no filename
segment and does not end in a separator — yet parseRemotePath returns the
directory-URL error, not the no-filename error: after normalization the
path is just "/". -/
theorem C7_counterexample :
    urlPath ("https://example.com".data) = [] ∧
    parseRemotePath ("https://example.com".data) ("/var/www".data)
      = Except.error RemotePathErr.urlEndsDirectory ∧
    Except.error RemotePathErr.urlEndsDirectory
      ≠ (Except.error RemotePathErr.urlHasNoFilename : Except RemotePathErr Str) := by
  decide

/-- C7 witness: the amended theorem applied at
`https://example.com/a/b/file.zip` with base `/var/www`, which resolves to
`/var/www/a/b`. -/
theorem C7_witness :
    (∃ pos,
      lastIndexOf '/'
        (if (urlPath ("https://example.com/a/b/file.zip".data)).take 1 = "/".data
         then urlPath ("https://example.com/a/b/file.zip".data)
         else '/' :: urlPath ("https://example.com/a/b/file.zip".data)) = some pos ∧
      parseRemotePath ("https://example.com/a/b/file.zip".data) ("/var/www".data)
        = Except.ok (trimSuffix ("/var/www".data) ("/".data) ++
            (if (urlPath ("https://example.com/a/b/file.zip".data)).take 1 = "/".data
             then urlPath ("https://example.com/a/b/file.zip".data)
             else '/' :: urlPath ("https://example.com/a/b/file.zip".data)).take pos)) ∧
    parseRemotePath ("https://example.com/a/b/file.zip".data) ("/var/www".data)
      = Except.ok ("/var/www/a/b".data) :=
  ⟨(C7_amended ("https://example.com/a/b/file.zip".data) ("/var/www".data)).2.2
      (by decide) (by decide),
   by decide⟩

/-! ## uploadFileViaSFTP / getRemoteFileModTime (lines 1629-1702, 2418-2442)

The SSH session itself is external input: the model takes the outcome of
`session.Output` (the stat command's bytes, or a failure) and of the local
`os.Stat` (the local modification time, or a failure) as oracles, and
computes how far uploadFileViaSFTP gets before any data transfer.  Times
are Unix seconds as Go's time.Unix uses them. -/

/-- Go's asciiSpace table used by strings.TrimSpace; the stat output the
program trims is ASCII, where TrimSpace trims exactly these bytes. -/
def asciiSpace (c : Char) : Bool :=
  c == '\t' || c == '\n' || c == '\x0b' || c == '\x0c' || c == '\r' || c == ' '

/-- strings.TrimSpace on ASCII text: drop leading and trailing space bytes. -/
def goTrimSpace (s : Str) : Str :=
  ((s.dropWhile asciiSpace).reverse.dropWhile asciiSpace).reverse

/-- strconv.ParseInt(s, 10, 64): optional sign, nonempty digit run, 64-bit
signed range check. -/
def parseInt10 (s : Str) : Except Unit Int :=
  match s with
  | [] => .error ()
  | c :: rest =>
    let digits := if c = '+' ∨ c = '-' then rest else s
    match digitsVal digits with
    | none => .error ()
    | some n =>
      if c = '-' then
        if (n : Int) ≤ 2 ^ 63 then .ok (-(n : Int)) else .error ()
      else
        if (n : Int) ≤ 2 ^ 63 - 1 then .ok (n : Int) else .error ()

/-- Go getRemoteFileModTime on the probe command's outcome: session errors
pass through, an empty trimmed output means the file does not exist, and
otherwise the output parses as a Unix timestamp. -/
def getRemoteFileModTime (output : Except Unit Str) : Except Unit Int :=
  match output with
  | .error _ => .error ()
  | .ok out =>
    let timestampStr := goTrimSpace out
    if timestampStr = [] then .error ()
    else parseInt10 timestampStr

/-- How far Go uploadFileViaSFTP gets before transferring data: the local
stat failed (error return), the upload was skipped with a nil return, or
the function proceeds to open the upload session. -/
inductive SFTPOutcome where
  | statFailed : SFTPOutcome
  | skippedSuccess : SFTPOutcome
  | proceedUpload : SFTPOutcome
deriving DecidableEq

/-- The decision prefix of Go uploadFileViaSFTP (lines 1629-1648): stat the
local file, probe the remote modification time, and skip with success when
the probe succeeded and the local file is not newer. -/
def uploadFileViaSFTP (localStat : Except Unit Int) (probeOutput : Except Unit Str) :
    SFTPOutcome :=
  match localStat with
  | .error _ => .statFailed
  | .ok localMod =>
    match getRemoteFileModTime probeOutput with
    | .ok remoteModTime =>
      if ¬(localMod > remoteModTime) then .skippedSuccess else .proceedUpload
    | .error _ => .proceedUpload

/-- C8: with a successful local stat, the upload is skipped (with success
reported) exactly when the remote probe succeeds with a timestamp not older
than the local modification time; when the probe reports a strictly older
remote file or fails (remote absent), the transfer proceeds. -/
theorem C8_theorem (localMod : Int) (probeOutput : Except Unit Str) :
    (uploadFileViaSFTP (.ok localMod) probeOutput = .skippedSuccess ↔
      ∃ t, getRemoteFileModTime probeOutput = .ok t ∧ localMod ≤ t) ∧
    (∀ t, getRemoteFileModTime probeOutput = .ok t → t < localMod →
      uploadFileViaSFTP (.ok localMod) probeOutput = .proceedUpload) ∧
    (getRemoteFileModTime probeOutput = .error () →
      uploadFileViaSFTP (.ok localMod) probeOutput = .proceedUpload) := by
  cases hg : getRemoteFileModTime probeOutput with
  | error e =>
    cases e
    refine ⟨?_, ?_, fun _ => ?_⟩
    · constructor
      · intro h
        simp only [uploadFileViaSFTP, hg] at h
        exact absurd h (by simp)
      · rintro ⟨t, ht, _⟩
        exact absurd ht (by simp)
    · intro t ht
      exact absurd ht (by simp)
    · simp only [uploadFileViaSFTP, hg]
  | ok t0 =>
    by_cases hgt : localMod > t0
    · have hu : uploadFileViaSFTP (.ok localMod) probeOutput = .proceedUpload := by
        simp only [uploadFileViaSFTP, hg]
        rw [if_neg (not_not_intro hgt)]
      refine ⟨?_, fun t ht hlt => hu, fun he => ?_⟩
      · constructor
        · intro h
          rw [hu] at h
          exact absurd h (by simp)
        · rintro ⟨t, ht, hle2⟩
          have he : t0 = t := by simpa using ht
          rw [← he] at hle2
          exact absurd hle2 (not_le.mpr hgt)
      · exact absurd he (by simp)
    · have hu : uploadFileViaSFTP (.ok localMod) probeOutput = .skippedSuccess := by
        simp only [uploadFileViaSFTP, hg]
        rw [if_pos hgt]
      refine ⟨⟨fun _ => ⟨t0, rfl, not_lt.mp hgt⟩, fun _ => hu⟩, fun t ht hlt => ?_, fun he => ?_⟩
      · have he : t0 = t := by simpa using ht
        rw [← he] at hlt
        exact absurd hlt hgt
      · exact absurd he (by simp)

/-- C8 witness: the theorem applied with local mtime 5 against a probe
output of " 7\n" (skip), and with local mtime 9 against the same probe
(proceed). -/
theorem C8_witness :
    uploadFileViaSFTP (.ok 5) (.ok (" 7\n".data)) = .skippedSuccess ∧
    uploadFileViaSFTP (.ok 9) (.ok (" 7\n".data)) = .proceedUpload :=
  ⟨(C8_theorem 5 (.ok (" 7\n".data))).1.mpr ⟨7, by decide, by decide⟩,
   (C8_theorem 9 (.ok (" 7\n".data))).2.1 7 (by decide) (by decide)⟩

/-! ## Rename-to-backup-then-overwrite (lines 1195-1203 and 1340-1350)

Both processMainPHPFile and setUpdateInfo persist with the same pattern:
`os.Rename(path, path+".bak")`, returning an error when the rename fails,
then `os.WriteFile(path, new)`.  The filesystem is a map from paths to
contents; OS-level failures beyond a missing source file are oracles. -/

/-- Delete a key from an association-list map (os.Rename removes the old
name). -/
def mdel {β : Type} : List (Str × β) → Str → List (Str × β)
  | [], _ => []
  | (k2, v) :: rest, k => if k2 = k then mdel rest k else (k2, v) :: mdel rest k

/-- Result of the persist step: whether it reported success, and the
resulting filesystem. -/
structure FsOutcome where
  success : Bool
  fs : List (Str × Str)

/-- The shared write-back pattern: rename `path` to `path ++ ".bak"` (error
if the file is missing or the OS rename fails, with nothing overwritten),
then write the new content to `path` (an OS write failure leaves only the
backup). -/
def renameBackupWrite (fs : List (Str × Str)) (path newContent : Str)
    (renameOk writeOk : Bool) : FsOutcome :=
  match mget fs path with
  | none => ⟨false, fs⟩
  | some old =>
    if ¬renameOk then ⟨false, fs⟩
    else
      let fs1 := mset (mdel fs path) (path ++ ".bak".data) old
      if ¬writeOk then ⟨false, fs1⟩
      else ⟨true, mset fs1 path newContent⟩

/-- C9: if the rename to the backup path fails (or the file to back up is
missing), the function reports failure and the filesystem — in particular
the original file — is unchanged; on the success path the `.bak` sibling
holds exactly the pre-write bytes and the original path holds the new
content. -/
theorem C9_theorem (fs : List (Str × Str)) (path newContent : Str) (writeOk : Bool) :
    (renameBackupWrite fs path newContent false writeOk = ⟨false, fs⟩) ∧
    (mget fs path = none →
      ∀ renameOk, renameBackupWrite fs path newContent renameOk writeOk = ⟨false, fs⟩) ∧
    (∀ old, mget fs path = some old →
      (renameBackupWrite fs path newContent true true).success = true ∧
      mget (renameBackupWrite fs path newContent true true).fs
          (path ++ ".bak".data) = some old ∧
      mget (renameBackupWrite fs path newContent true true).fs path
          = some newContent) := by
  have hne : path ++ (".bak".data : Str) ≠ path := by
    intro h
    have hlen := congrArg List.length h
    rw [List.length_append] at hlen
    have h4 : ((".bak".data : Str)).length = 4 := rfl
    rw [h4] at hlen
    omega
  refine ⟨?_, ?_, ?_⟩
  · cases hm : mget fs path with
    | none => simp only [renameBackupWrite, hm]
    | some old =>
      simp only [renameBackupWrite, hm]
      rw [if_pos (by simp)]
  · intro hm renameOk
    simp only [renameBackupWrite, hm]
  · intro old hm
    have hr : renameBackupWrite fs path newContent true true
        = ⟨true, mset (mset (mdel fs path) (path ++ ".bak".data) old) path newContent⟩ := by
      simp only [renameBackupWrite, hm]
      rw [if_neg (by simp), if_neg (by simp)]
    refine ⟨by rw [hr], ?_, ?_⟩
    · rw [hr]
      have h1 := mget_mset_ne (mset (mdel fs path) (path ++ ".bak".data) old)
        path (path ++ ".bak".data) newContent hne
      rw [h1]
      exact mget_mset_self (mdel fs path) (path ++ ".bak".data) old
    · rw [hr]
      exact mget_mset_self (mset (mdel fs path) (path ++ ".bak".data) old) path newContent

/-- C9 witness: the theorem applied to a one-file filesystem
`a.php ↦ OLD` written with `NEW`: a failed rename leaves the map unchanged
with failure reported, and the success path yields `a.php.bak ↦ OLD` and
`a.php ↦ NEW`. -/
theorem C9_witness :
    renameBackupWrite [(("a.php".data : Str), ("OLD".data : Str))]
        ("a.php".data) ("NEW".data) false true
      = ⟨false, [("a.php".data, "OLD".data)]⟩ ∧
    ((renameBackupWrite [(("a.php".data : Str), ("OLD".data : Str))]
        ("a.php".data) ("NEW".data) true true).success = true ∧
     mget (renameBackupWrite [(("a.php".data : Str), ("OLD".data : Str))]
        ("a.php".data) ("NEW".data) true true).fs
          ("a.php".data ++ ".bak".data) = some ("OLD".data) ∧
     mget (renameBackupWrite [(("a.php".data : Str), ("OLD".data : Str))]
        ("a.php".data) ("NEW".data) true true).fs ("a.php".data)
          = some ("NEW".data)) :=
  ⟨(C9_theorem [(("a.php".data : Str), ("OLD".data : Str))]
      ("a.php".data) ("NEW".data) true).1,
   (C9_theorem [(("a.php".data : Str), ("OLD".data : Str))]
      ("a.php".data) ("NEW".data) true).2.2 ("OLD".data) (by decide)⟩
